import Mathlib

/-!
# Matrix chain multiplication (`Lab6/mat.cpp`)

A shallow embedding of the three classes of `mat.cpp`:

* `MatrixChainBase`  : the dimension vector, the constructor check,
  `validateDimensions` and `printMatrixSequence`;
* `MatrixChain`      : the memoised solver (`calculateCost`, `findOptimalCost`,
  `printOptimalSequence`) and the pairwise estimator `bruteForceMinCost`;
* `MatrixChainBruteForce` : the unmemoised recursion `bruteForceCost`.

Conventions of the embedding.

* `int` is a 32 bit two's complement integer: values are `Int`, and every `+`
  and `*` of the source is followed by `wrapInt`, the reduction into
  `[-2^31, 2^31)`.
* `vector` reads and writes are bounds checked: an access outside the vector
  yields `none` (the C++ behaviour is undefined there).
* the recursive functions take a `fuel` argument; `none` is also the answer when
  the fuel runs out.  The entry points pass `n_` as fuel, which is enough for
  the range `(0, n_ - 1)`.
* the indices `i`, `j`, `k` of `calculateCost` and `bruteForceCost` are
  naturals: the entry points call them with `(0, n_ - 1)` and every recursive
  call is made on `(i, k)` or `(k + 1, j)` with `i ≤ k`.
* `n_` is the size of the vector, a natural; `printOptimalSequence` takes `int`
  indices, because it follows the `int`s stored in `sequence_`.
* `cout` is a `String` that the printing functions return.
* the two operands `calculateCost(i, k) + calculateCost(k + 1, j)` are evaluated
  left to right.
-/

namespace MatChain

/-! ## Machine integers -/

/-- The value of `numeric_limits<int>::max()`. -/
def INT_MAX : Int := 2147483647

/-- Reduction of an integer into the range of a 32 bit signed `int`. -/
def wrapInt (x : Int) : Int := (x + 2147483648) % 4294967296 - 2147483648

/-- The `+` of two `int`s. -/
def addInt (a b : Int) : Int := wrapInt (a + b)

/-- The `*` of two `int`s. -/
def mulInt (a b : Int) : Int := wrapInt (a * b)

/-! ## Failures -/

/-- The three `runtime_error`s thrown by the program. -/
inductive Failure where
  | EmptyChain
  | NonConformableDimensions
  | ZeroDimension
  deriving DecidableEq, Repr

/-- The message carried by each `runtime_error`. -/
def Failure.what : Failure → String
  | .EmptyChain => "No matrices available."
  | .NonConformableDimensions => "Matrix dimensions are not conformable."
  | .ZeroDimension => "Zero dimensions are not allowed."

/-! ## `MatrixChainBase` -/

/-- The members of `MatrixChainBase`. -/
structure MatrixChainBase where
  dimensions_ : List (Int × Int)
  n_ : Nat
  deriving DecidableEq, Repr

/-- The constructor `MatrixChainBase(dimensions)`: it copies the vector, stores
its size and throws when the size is zero. -/
def MatrixChainBase.new (dimensions : List (Int × Int)) : Except Failure MatrixChainBase :=
  let n := dimensions.length
  if n = 0 then .error .EmptyChain
  else .ok { dimensions_ := dimensions, n_ := n }

/-- The value of the `size_t` expression `dimensions_.size() - 1`: the unsigned
subtraction wraps to `2^64 - 1` when the vector is empty. -/
def sizeMinusOne (size : Nat) : Nat := if size = 0 then 18446744073709551615 else size - 1

/-- The loop of `validateDimensions`, with `cnt` iterations left and loop
variable `i`. -/
def validateLoop (d : List (Int × Int)) : Nat → Nat → Option (Except Failure Unit)
  | 0, _ => some (.ok ())
  | cnt + 1, i =>
    match d[i]?, d[i + 1]? with
    | some a, some b =>
      if a.2 ≠ b.1 then some (.error .NonConformableDimensions)
      else if a.1 = 0 ∨ a.2 = 0 then some (.error .ZeroDimension)
      else validateLoop d cnt (i + 1)
    | _, _ => none

/-- The method `validateDimensions`: `some (.ok ())` when it returns,
`some (.error e)` when it throws, `none` when it reads outside the vector. -/
def MatrixChainBase.validateDimensions (m : MatrixChainBase) : Option (Except Failure Unit) :=
  validateLoop m.dimensions_ (sizeMinusOne m.dimensions_.length) 0

/-- Construction followed by `validateDimensions`, as `runSingleTest` and
`displayResults` perform them on one chain. -/
def validate (dimensions : List (Int × Int)) : Option (Except Failure Unit) :=
  match MatrixChainBase.new dimensions with
  | .error e => some (.error e)
  | .ok m => m.validateDimensions

/-! ## `MatrixChain`: the memoised solver -/

/-- A `vector<vector<int>>`. -/
abbrev Table := List (List Int)

/-- The read `t[i][j]`. -/
def Table.get2 (t : Table) (i j : Nat) : Option Int :=
  match t[i]? with
  | some row => row[j]?
  | none => none

/-- The write `t[i][j] = v`. -/
def Table.set2 (t : Table) (i j : Nat) (v : Int) : Option Table :=
  match t[i]? with
  | some row => if j < row.length then some (t.set i (row.set j v)) else none
  | none => none

/-- The members of `MatrixChain` (those of the base class and the two tables). -/
structure MatrixChain extends MatrixChainBase where
  memo_ : Table
  sequence_ : Table
  deriving DecidableEq, Repr

/-- The constructor `MatrixChain(dimensions)`: the base constructor, then both
tables are `n_ × n_` and filled with `-1`. -/
def MatrixChain.new (dimensions : List (Int × Int)) : Except Failure MatrixChain :=
  match MatrixChainBase.new dimensions with
  | .error e => .error e
  | .ok b =>
    .ok { toMatrixChainBase := b
          memo_ := List.replicate b.n_ (List.replicate b.n_ (-1))
          sequence_ := List.replicate b.n_ (List.replicate b.n_ (-1)) }

/-- The expression `dimensions_[i].first * dimensions_[k].second * dimensions_[j].second`. -/
def dimProduct (d : List (Int × Int)) (i k j : Nat) : Option Int :=
  match d[i]?, d[k]?, d[j]? with
  | some di, some dk, some dj => some (mulInt (mulInt di.1 dk.2) dj.2)
  | _, _, _ => none

/-- The `for (int k = i; k < j; ++k)` loop of `calculateCost`, with `cnt = j - k`
iterations left; `call` is the recursive call. -/
def calcLoop (call : Nat → Nat → MatrixChain → Option (Int × MatrixChain)) (i j : Nat) :
    Nat → Nat → Int → MatrixChain → Option (Int × MatrixChain)
  | 0, _, minCost, s => some (minCost, s)
  | cnt + 1, k, minCost, s =>
    match call i k s with
    | none => none
    | some (a, s1) =>
      match call (k + 1) j s1 with
      | none => none
      | some (b, s2) =>
        match dimProduct s2.dimensions_ i k j with
        | none => none
        | some p =>
          let cost := addInt (addInt a b) p
          if cost < minCost then
            match s2.sequence_.set2 i j (k : Int) with
            | none => none
            | some q => calcLoop call i j cnt (k + 1) cost { s2 with sequence_ := q }
          else calcLoop call i j cnt (k + 1) minCost s2

/-- The method `calculateCost(i, j)`: the returned `int` and the solver after
the call. -/
def MatrixChain.calculateCost : Nat → Nat → Nat → MatrixChain → Option (Int × MatrixChain)
  | 0, _, _, _ => none
  | fuel + 1, i, j, s =>
    if i = j then some (0, s)
    else
      match s.memo_.get2 i j with
      | none => none
      | some m =>
        if m ≠ -1 then some (m, s)
        else
          match calcLoop (MatrixChain.calculateCost fuel) i j (j - i) i INT_MAX s with
          | none => none
          | some (minCost, s1) =>
            match s1.memo_.set2 i j minCost with
            | none => none
            | some t => some (minCost, { s1 with memo_ := t })

/-- The method `findOptimalCost()`. -/
def MatrixChain.findOptimalCost (s : MatrixChain) : Option (Int × MatrixChain) :=
  MatrixChain.calculateCost s.n_ 0 (s.n_ - 1) s

/-- The loop of `MatrixChain::bruteForceMinCost`, with `cnt` iterations left,
loop variable `i` and accumulator `totalCost`. -/
def naiveLoop (d : List (Int × Int)) : Nat → Nat → Int → Option Int
  | 0, _, totalCost => some totalCost
  | cnt + 1, i, totalCost =>
    match d[i]?, d[i + 1]? with
    | some a, some b => naiveLoop d cnt (i + 1) (addInt totalCost (mulInt (mulInt a.1 a.2) b.2))
    | _, _ => none

/-- The method `MatrixChain::bruteForceMinCost()`, the pairwise estimator. -/
def MatrixChain.bruteForceMinCost (s : MatrixChain) : Option Int :=
  naiveLoop s.dimensions_ (sizeMinusOne s.dimensions_.length) 0 0

/-- A read `sequence_[i][j]` with `int` indices. -/
def Table.getInt (t : Table) (i j : Int) : Option Int :=
  if 0 ≤ i ∧ 0 ≤ j then t.get2 i.toNat j.toNat else none

/-- The method `printOptimalSequence(i, j)`: the text written to `cout`. -/
def MatrixChain.printOptimalSequence (s : MatrixChain) : Nat → Int → Int → Option String
  | 0, _, _ => none
  | fuel + 1, i, j =>
    if i = j then some ("C" ++ toString (addInt i 1))
    else
      match s.sequence_.getInt i j with
      | none => none
      | some k =>
        match MatrixChain.printOptimalSequence s fuel i k with
        | none => none
        | some left =>
          match MatrixChain.printOptimalSequence s fuel (addInt k 1) j with
          | none => none
          | some right => some ("(" ++ left ++ right ++ ")")

/-! ## `MatrixChainBruteForce`: the unmemoised recursion -/

/-- The members of `MatrixChainBruteForce` (those of the base class). -/
structure MatrixChainBruteForce extends MatrixChainBase where
  deriving DecidableEq, Repr

/-- The constructor `MatrixChainBruteForce(dimensions)`. -/
def MatrixChainBruteForce.new (dimensions : List (Int × Int)) :
    Except Failure MatrixChainBruteForce :=
  match MatrixChainBase.new dimensions with
  | .error e => .error e
  | .ok b => .ok { toMatrixChainBase := b }

/-- The loop of `bruteForceCost`, with `cnt = j - k` iterations left; `call` is
the recursive call and the new `minCost` is `min(minCost, cost)`. -/
def bfLoop (call : Nat → Nat → Option Int) (d : List (Int × Int)) (i j : Nat) :
    Nat → Nat → Int → Option Int
  | 0, _, minCost => some minCost
  | cnt + 1, k, minCost =>
    match call i k with
    | none => none
    | some a =>
      match call (k + 1) j with
      | none => none
      | some b =>
        match dimProduct d i k j with
        | none => none
        | some p =>
          let cost := addInt (addInt a b) p
          bfLoop call d i j cnt (k + 1) (if cost < minCost then cost else minCost)

/-- The method `bruteForceCost(i, j)`. -/
def MatrixChainBruteForce.bruteForceCost (m : MatrixChainBruteForce) : Nat → Nat → Nat → Option Int
  | 0, _, _ => none
  | fuel + 1, i, j =>
    if i = j then some 0
    else bfLoop (MatrixChainBruteForce.bruteForceCost m fuel) m.dimensions_ i j (j - i) i INT_MAX

/-- The method `MatrixChainBruteForce::bruteForceMinCost()`. -/
def MatrixChainBruteForce.bruteForceMinCost (m : MatrixChainBruteForce) : Option Int :=
  m.bruteForceCost m.n_ 0 (m.n_ - 1)

/-! ## Specification-level notions -/

/-- The row count of matrix `i` (`0` outside the chain). -/
def rows (d : List (Int × Int)) (i : Nat) : Int := (d.getD i (0, 0)).1

/-- The column count of matrix `i` (`0` outside the chain). -/
def cols (d : List (Int × Int)) (i : Nat) : Int := (d.getD i (0, 0)).2

/-- A valid chain: non-empty, every dimension positive, adjacent matrices
conformable. -/
def ValidChain (d : List (Int × Int)) : Prop :=
  d ≠ [] ∧ (∀ i, i < d.length → 0 < rows d i ∧ 0 < cols d i) ∧
    ∀ i, i < d.length - 1 → cols d i = rows d (i + 1)

instance (d : List (Int × Int)) : Decidable (ValidChain d) := by
  unfold ValidChain; infer_instance

/-- The running minimum kept by both cost loops: starting from `m`, the values
`f k, f (k+1), ..., f (k+cnt-1)` are compared in turn with a strict `<`. -/
def scanMin (f : Nat → Int) : Nat → Nat → Int → Int
  | 0, _, m => m
  | cnt + 1, k, m => scanMin f cnt (k + 1) (if f k < m then f k else m)

/-- The split recorded by the loop of `calculateCost`: `a` to begin with, and
the loop variable each time the running minimum strictly improves. -/
def scanArg (f : Nat → Int) : Nat → Nat → Int → Int → Int
  | 0, _, _, a => a
  | cnt + 1, k, m, a =>
    if f k < m then scanArg f cnt (k + 1) (f k) (k : Int) else scanArg f cnt (k + 1) m a

/-- The `int` that `bruteForceCost(i, j)` returns on the chain `d`. -/
def oracleCost (d : List (Int × Int)) (i j : Nat) : Int :=
  ((MatrixChainBruteForce.mk ⟨d, d.length⟩).bruteForceCost (j + 1 - i) i j).getD 0

/-- The `int` value `cost` of the loop body for the split `k` of the range
`(i, j)`, computed from the oracle's values of the two halves. -/
def oracleCand (d : List (Int × Int)) (i j k : Nat) : Int :=
  addInt (addInt (oracleCost d i k) (oracleCost d (k + 1) j))
    (mulInt (mulInt (rows d i) (cols d k)) (cols d j))

/-- The least of `f k, f (k+1), ..., f (k+c)`. -/
def minOver (f : Nat → Int) (k : Nat) : Nat → Int
  | 0 => f k
  | c + 1 => min (f k) (minOver f (k + 1) c)

/-- The recurrence of the specification over unbounded integers:
`cost(i,j) = 0` if `i = j`, else the least over `k` in `[i, j-1]` of
`cost(i,k) + cost(k+1,j) + rows[i] * cols[k] * cols[j]`. -/
def optCostF (d : List (Int × Int)) : Nat → Nat → Nat → Int
  | 0, _, _ => 0
  | fuel + 1, i, j =>
    if j ≤ i then 0
    else minOver (fun k => optCostF d fuel i k + optCostF d fuel (k + 1) j
            + rows d i * cols d k * cols d j) i (j - i - 1)

/-- The minimum cost of the sub-chain `i..j` according to the recurrence. -/
def optCost (d : List (Int × Int)) (i j : Nat) : Int := optCostF d (j + 1 - i) i j

/-- The candidate cost of splitting `i..j` at `k`, over unbounded integers. -/
def candCost (d : List (Int × Int)) (i j k : Nat) : Int :=
  optCost d i k + optCost d (k + 1) j + rows d i * cols d k * cols d j

/-- Every candidate cost the recurrence looks at, on every sub-range of the
chain, is below `INT_MAX`. -/
def CostsBelowIntMax (d : List (Int × Int)) : Prop :=
  ∀ j, j < d.length → ∀ k, k < j → ∀ i, i < k + 1 → candCost d i j k < INT_MAX

instance (d : List (Int × Int)) : Decidable (CostsBelowIntMax d) := by
  unfold CostsBelowIntMax; infer_instance

/-- A full binary parenthesization: a binary tree whose leaves are matrices. -/
inductive PTree where
  | leaf (i : Nat)
  | node (l r : PTree)
  deriving DecidableEq, Repr

/-- The leftmost matrix of a tree. -/
def PTree.first : PTree → Nat
  | .leaf i => i
  | .node l _ => l.first

/-- The rightmost matrix of a tree. -/
def PTree.last : PTree → Nat
  | .leaf i => i
  | .node _ r => r.last

/-- The leaves of the tree are exactly `i, i+1, ..., j`, in this order. -/
def PTree.spans : PTree → Nat → Nat → Bool
  | .leaf m, i, j => m == i && i == j
  | .node l r, i, j => l.spans i l.last && r.spans (l.last + 1) j

/-- The number of scalar multiplications of a parenthesization: the product of
an `a x b` result and a `b x c` result costs `a * b * c`. -/
def PTree.cost (d : List (Int × Int)) : PTree → Int
  | .leaf _ => 0
  | .node l r => l.cost d + r.cost d + rows d l.first * cols d l.last * cols d r.last

/-- The parenthesization read off a split table: the range `(i, j)` is split at
`t[i][j]`, a single matrix is a leaf. -/
def splitTree (t : Table) : Nat → Int → Int → Option PTree
  | 0, _, _ => none
  | fuel + 1, i, j =>
    if i = j then (if 0 ≤ i then some (.leaf i.toNat) else none)
    else
      match t.getInt i j with
      | none => none
      | some k =>
        match splitTree t fuel i k, splitTree t fuel (k + 1) j with
        | some l, some r => some (.node l r)
        | _, _ => none

/-- The sum over `i = 0..m-1` of `rows[i] * cols[i] * cols[i+1]`, over unbounded
integers. -/
def pairwiseSumUpTo (d : List (Int × Int)) (m : Nat) : Int :=
  ((List.range m).map (fun i => rows d i * cols d i * cols d (i + 1))).sum

/-- The sum over `i = 0..n-2` of `rows[i] * cols[i] * cols[i+1]`, over unbounded
integers. -/
def pairwiseSum (d : List (Int × Int)) : Int := pairwiseSumUpTo d (d.length - 1)

/-- Validity in the sense of the data model: at least one matrix, every row and
column count non-zero, adjacent matrices conformable. -/
def DataModelValid (d : List (Int × Int)) : Prop :=
  d ≠ [] ∧ (∀ i, i < d.length → rows d i ≠ 0 ∧ cols d i ≠ 0) ∧
    ∀ i, i < d.length - 1 → cols d i = rows d (i + 1)

instance (d : List (Int × Int)) : Decidable (DataModelValid d) := by
  unfold DataModelValid; infer_instance

/-- Matrix `i` fails the body of the validation loop: it is not conformable with
its successor, or one of its own dimensions is zero. -/
def Offending (d : List (Int × Int)) (i : Nat) : Prop :=
  cols d i ≠ rows d (i + 1) ∨ rows d i = 0 ∨ cols d i = 0

instance (d : List (Int × Int)) (i : Nat) : Decidable (Offending d i) := by
  unfold Offending; infer_instance

/-! ## `printMatrixSequence` -/

/-- The `for (int k = i; k < j; ++k)` loop of `printMatrixSequence`, with
`cnt = j - k` iterations left; `call` is the recursive call and `out` the text
written since the opening parenthesis. -/
def printLoop (call : Nat → Nat → Option String) (i j : Nat) :
    Nat → Nat → String → Option String
  | 0, _, out => some out
  | cnt + 1, k, out =>
    match call i k with
    | none => none
    | some a =>
      match call (k + 1) j with
      | none => none
      | some b => printLoop call i j cnt (k + 1) (out ++ a ++ " x " ++ b)

/-- The method `printMatrixSequence(i, j)`: the text written to `cout`. -/
def MatrixChainBase.printMatrixSequence (m : MatrixChainBase) : Nat → Nat → Nat → Option String
  | 0, _, _ => none
  | fuel + 1, i, j =>
    if i = j then some ("C" ++ toString (addInt i 1))
    else
      match printLoop (MatrixChainBase.printMatrixSequence m fuel) i j (j - i) i "(" with
      | none => none
      | some out => some (out ++ ")")

/-- The concatenation of `f k, f (k+1), ..., f (k+c-1)`, in this order. -/
def concatRange (f : Nat → String) : Nat → Nat → String
  | 0, _ => ""
  | c + 1, k => f k ++ concatRange f c (k + 1)

/-- The text `out(i, j)` of the specification: `C` and the decimal `i+1` for a
single matrix, else the concatenation over all splits `k = i, ..., j-1` of
`out(i, k)`, the marker and `out(k+1, j)`, inside one pair of parentheses. -/
def outTextF : Nat → Nat → Nat → String
  | 0, _, _ => ""
  | fuel + 1, i, j =>
    if i = j then "C" ++ toString (i + 1)
    else "(" ++ concatRange (fun k => outTextF fuel i k ++ " x " ++ outTextF fuel (k + 1) j)
            (j - i) i ++ ")"

/-- The text `out(i, j)`, with enough fuel for the range. -/
def outText (i j : Nat) : String := outTextF (j + 1 - i) i j

/-! ## The text of a parenthesization -/

/-- Every `int` value `cost` that the loops compute, on every sub-range of the
chain, is below `INT_MAX`. -/
def ComputedCostsBelowIntMax (d : List (Int × Int)) : Prop :=
  ∀ j, j < d.length → ∀ k, k < j → ∀ i, i < k + 1 → oracleCand d i j k < INT_MAX

instance (d : List (Int × Int)) : Decidable (ComputedCostsBelowIntMax d) := by
  unfold ComputedCostsBelowIntMax; infer_instance

/-- The text of a parenthesization as `printOptimalSequence` lays it out: the
label `C` and the decimal `i+1` for matrix `i`, and a pair of parentheses around
the two halves of a product. -/
def PTree.render : PTree → String
  | .leaf i => "C" ++ toString (i + 1)
  | .node l r => "(" ++ l.render ++ r.render ++ ")"

/-- The labels of the `c` matrices `k, k+1, ..., k+c-1`, one after the other. -/
def labelsText : Nat → Nat → List Char
  | 0, _ => []
  | c + 1, k => ("C" ++ toString (k + 1)).data ++ labelsText c (k + 1)

/-- The character is a parenthesis. -/
def isParen (c : Char) : Bool := c == '(' || c == ')'

/-- The nesting depth after reading the characters, starting from depth `dep`;
`none` when a closing parenthesis has no partner. -/
def depthAfter : List Char → Nat → Option Nat
  | [], dep => some dep
  | c :: cs, dep =>
    if c = '(' then depthAfter cs (dep + 1)
    else if c = ')' then (if dep = 0 then none else depthAfter cs (dep - 1))
    else depthAfter cs dep

/-- The parentheses of the text are balanced. -/
def Balanced (cs : List Char) : Prop := depthAfter cs 0 = some 0

instance (cs : List Char) : Decidable (Balanced cs) := by
  unfold Balanced; infer_instance

/-! ## Invariants of the solver state -/

/-- The table is `n × n`. -/
def Table.Square (t : Table) (n : Nat) : Prop :=
  t.length = n ∧ ∀ (i : Nat) (row : List Int), t[i]? = some row → row.length = n

/-- The solver `s` works on the chain `d`, `n_` is its length and both tables
are `n_ × n_`. -/
def MatrixChain.WellFormed (s : MatrixChain) (d : List (Int × Int)) : Prop :=
  s.dimensions_ = d ∧ s.n_ = d.length ∧ s.memo_.Square d.length ∧
    s.sequence_.Square d.length

/-- The entry `(a, b)` of the tables is final: `memo_[a][b]` is the oracle's
cost and, when that cost is below `INT_MAX`, `sequence_[a][b]` is the split the
loop records. -/
def MatrixChain.EntryDone (s : MatrixChain) (d : List (Int × Int)) (a b : Nat) : Prop :=
  s.memo_.get2 a b = some (oracleCost d a b) ∧
    (oracleCost d a b < INT_MAX →
      s.sequence_.get2 a b = some (scanArg (oracleCand d a b) (b - a) a INT_MAX (-1)))

/-- Every proper sub-range of `i..j` has a final entry. -/
def MatrixChain.Filled (s : MatrixChain) (d : List (Int × Int)) (i j : Nat) : Prop :=
  ∀ a b, i ≤ a → a < b → b ≤ j → s.EntryDone d a b

/-- Inside `i..j`, an entry of `memo_` is either still `-1` or its whole
sub-range is filled. -/
def MatrixChain.Memoised (s : MatrixChain) (d : List (Int × Int)) (i j : Nat) : Prop :=
  ∀ a b, i ≤ a → a < b → b ≤ j → s.memo_.get2 a b = some (-1) ∨ s.Filled d a b

/-- The entries outside the sub-ranges of `i..j` are the same in `s` and `s1`. -/
def MatrixChain.SameOutside (s s1 : MatrixChain) (i j : Nat) : Prop :=
  ∀ a b, ¬ (i ≤ a ∧ a < b ∧ b ≤ j) →
    s1.memo_.get2 a b = s.memo_.get2 a b ∧ s1.sequence_.get2 a b = s.sequence_.get2 a b

/-- Inside `i..j`, an entry of `memo_` for a range shorter than `i..j` is either
still `-1` or its whole sub-range is filled. -/
def MatrixChain.MemoisedBelow (s : MatrixChain) (d : List (Int × Int)) (i j : Nat) : Prop :=
  ∀ a b, i ≤ a → a < b → b ≤ j → b - a < j - i →
    s.memo_.get2 a b = some (-1) ∨ s.Filled d a b

/-- What a call on the range `(a, b)` does to a well-formed, memoised solver. -/
def CallSpec (d : List (Int × Int))
    (call : Nat → Nat → MatrixChain → Option (Int × MatrixChain)) (a b : Nat) : Prop :=
  ∀ s : MatrixChain, s.WellFormed d → s.Memoised d a b →
    ∃ s1, call a b s = some (oracleCost d a b, s1) ∧ s1.WellFormed d ∧ s1.Filled d a b ∧
      s.SameOutside s1 a b

/-! ## Machine integers and the running minimum -/

theorem wrapInt_eq {x : Int} (h1 : -2147483648 ≤ x) (h2 : x ≤ 2147483647) : wrapInt x = x := by
  unfold wrapInt; omega

theorem wrapInt_range (x : Int) : -2147483648 ≤ wrapInt x ∧ wrapInt x ≤ 2147483647 := by
  unfold wrapInt; omega

theorem scanMin_le_init (f : Nat → Int) : ∀ c k m, scanMin f c k m ≤ m := by
  intro c
  induction c with
  | zero => intro k m; simp [scanMin]
  | succ c ih =>
    intro k m
    simp only [scanMin]
    by_cases hlt : f k < m
    · rw [if_pos hlt]; have h := ih (k + 1) (f k); omega
    · rw [if_neg hlt]; exact ih (k + 1) m

theorem scanMin_le (f : Nat → Int) :
    ∀ c k m k1, k ≤ k1 → k1 < k + c → scanMin f c k m ≤ f k1 := by
  intro c
  induction c with
  | zero => intro k m k1 h1 h2; omega
  | succ c ih =>
    intro k m k1 h1 h2
    simp only [scanMin]
    rcases Nat.eq_or_lt_of_le h1 with h | h
    · subst h
      by_cases hlt : f k < m
      · rw [if_pos hlt]; exact scanMin_le_init f c (k + 1) (f k)
      · rw [if_neg hlt]; have h := scanMin_le_init f c (k + 1) m; omega
    · exact ih (k + 1) _ k1 h (by omega)

theorem scanMin_cases (f : Nat → Int) :
    ∀ c k m, scanMin f c k m = m ∨ ∃ k1, k ≤ k1 ∧ k1 < k + c ∧ scanMin f c k m = f k1 := by
  intro c
  induction c with
  | zero => intro k m; left; rfl
  | succ c ih =>
    intro k m
    simp only [scanMin]
    rcases ih (k + 1) (if f k < m then f k else m) with h | ⟨k1, h1, h2, h3⟩
    · by_cases hlt : f k < m
      · right; exact ⟨k, le_refl k, by omega, by rw [h, if_pos hlt]⟩
      · left; rw [h, if_neg hlt]
    · right; exact ⟨k1, by omega, by omega, h3⟩

theorem scanArg_keep (f : Nat → Int) :
    ∀ c k m a, scanMin f c k m = m → scanArg f c k m a = a := by
  intro c
  induction c with
  | zero => intro k m a _; rfl
  | succ c ih =>
    intro k m a h
    simp only [scanMin] at h
    simp only [scanArg]
    by_cases hlt : f k < m
    · rw [if_pos hlt] at h
      have := scanMin_le_init f c (k + 1) (f k)
      omega
    · rw [if_neg hlt] at h
      rw [if_neg hlt]
      exact ih (k + 1) m a h

theorem scanArg_spec (f : Nat → Int) :
    ∀ c k m a, scanMin f c k m < m →
      ∃ k1, k ≤ k1 ∧ k1 < k + c ∧ scanArg f c k m a = (k1 : Int) ∧
        f k1 = scanMin f c k m ∧ ∀ k2, k ≤ k2 → k2 < k1 → scanMin f c k m < f k2 := by
  intro c
  induction c with
  | zero => intro k m a h; simp [scanMin] at h
  | succ c ih =>
    intro k m a h
    simp only [scanMin] at h ⊢
    simp only [scanArg]
    by_cases hlt : f k < m
    · rw [if_pos hlt] at h ⊢
      rw [if_pos hlt]
      rcases lt_or_eq_of_le (scanMin_le_init f c (k + 1) (f k)) with h1 | h1
      · obtain ⟨k1, a1, a2, a3, a4, a5⟩ := ih (k + 1) (f k) (k : Int) h1
        refine ⟨k1, by omega, by omega, a3, a4, ?_⟩
        intro k2 b1 b2
        rcases Nat.eq_or_lt_of_le b1 with e | e
        · subst e; exact h1
        · exact a5 k2 e b2
      · refine ⟨k, le_refl k, by omega, scanArg_keep f c (k + 1) (f k) _ h1, h1.symm, ?_⟩
        intro k2 b1 b2; omega
    · rw [if_neg hlt] at h ⊢
      rw [if_neg hlt]
      obtain ⟨k1, a1, a2, a3, a4, a5⟩ := ih (k + 1) m a h
      refine ⟨k1, by omega, by omega, a3, a4, ?_⟩
      intro k2 b1 b2
      rcases Nat.eq_or_lt_of_le b1 with e | e
      · subst e; omega
      · exact a5 k2 e b2

/-! ## Tables -/

theorem Table.get2_of_square {t : Table} {n i j : Nat} (h : t.Square n) (hi : i < n)
    (hj : j < n) : ∃ v, t.get2 i j = some v := by
  obtain ⟨h1, h2⟩ := h
  have hi1 : i < t.length := by omega
  have hrow := h2 i t[i] (List.getElem?_eq_getElem hi1)
  have hj1 : j < (t[i]).length := by omega
  refine ⟨(t[i])[j], ?_⟩
  simp [Table.get2, List.getElem?_eq_getElem hi1, List.getElem?_eq_getElem hj1]

theorem Table.set2_of_square {t : Table} {n i j : Nat} (v : Int) (h : t.Square n)
    (hi : i < n) (hj : j < n) :
    ∃ t1, t.set2 i j v = some t1 ∧ t1.Square n ∧
      ∀ a b, t1.get2 a b = if a = i ∧ b = j then some v else t.get2 a b := by
  obtain ⟨h1, h2⟩ := h
  have hi1 : i < t.length := by omega
  have hrow := h2 i t[i] (List.getElem?_eq_getElem hi1)
  have hj1 : j < (t[i]).length := by omega
  refine ⟨t.set i ((t[i]).set j v), ?_, ⟨?_, ?_⟩, ?_⟩
  · simp [Table.set2, List.getElem?_eq_getElem hi1, hj1]
  · simp [h1]
  · intro a row ha
    rw [List.getElem?_set] at ha
    by_cases e : i = a
    · rw [if_pos e, if_pos hi1] at ha
      injection ha with ha
      rw [← ha, List.length_set]; exact hrow
    · rw [if_neg e] at ha
      exact h2 a row ha
  · intro a b
    unfold Table.get2
    rw [List.getElem?_set]
    by_cases e : i = a
    · subst e
      rw [if_pos rfl, if_pos hi1]
      simp only [true_and]
      rw [List.getElem?_set, List.getElem?_eq_getElem hi1]
      by_cases e2 : j = b
      · subst e2; simp [hj1]
      · rw [if_neg e2, if_neg (fun h => e2 h.symm)]
    · rw [if_neg e, if_neg (fun h => e h.1.symm)]

/-! ## The oracle `bruteForceCost` -/

theorem bruteForceCost_congr (m m1 : MatrixChainBruteForce)
    (h : m.dimensions_ = m1.dimensions_) :
    ∀ fuel, m.bruteForceCost fuel = m1.bruteForceCost fuel := by
  intro fuel
  induction fuel with
  | zero => funext i j; rfl
  | succ fuel ih =>
    funext i j
    simp only [MatrixChainBruteForce.bruteForceCost, ih, h]

theorem dimProduct_eq {d : List (Int × Int)} {i k j : Nat} (hi : i < d.length)
    (hk : k < d.length) (hj : j < d.length) :
    dimProduct d i k j = some (mulInt (mulInt (rows d i) (cols d k)) (cols d j)) := by
  simp [dimProduct, rows, cols, List.getD_eq_getElem?_getD, List.getElem?_eq_getElem hi,
    List.getElem?_eq_getElem hk, List.getElem?_eq_getElem hj]

theorem bfLoop_eq (call : Nat → Nat → Option Int) (d : List (Int × Int)) (i j : Nat)
    (hi : i < d.length) (hj : j < d.length) :
    ∀ c k m, k + c ≤ d.length →
      (∀ k1, k ≤ k1 → k1 < k + c →
        call i k1 = some (oracleCost d i k1) ∧ call (k1 + 1) j = some (oracleCost d (k1 + 1) j)) →
      bfLoop call d i j c k m = some (scanMin (oracleCand d i j) c k m) := by
  intro c
  induction c with
  | zero => intro k m _ _; rfl
  | succ c ih =>
    intro k m hk hcall
    obtain ⟨h1, h2⟩ := hcall k (le_refl k) (by omega)
    simp only [bfLoop, h1, h2, dimProduct_eq hi (show k < d.length by omega) hj, scanMin]
    exact ih (k + 1) _ (by omega) (fun k1 a b => hcall k1 (by omega) (by omega))

theorem bruteForceCost_oracle (d : List (Int × Int)) :
    ∀ len i j, j - i = len → i ≤ j → j < d.length →
      (∀ fuel, len < fuel → ∀ m : MatrixChainBruteForce, m.dimensions_ = d →
        m.bruteForceCost fuel i j = some (oracleCost d i j)) ∧
      (i < j → oracleCost d i j = scanMin (oracleCand d i j) (j - i) i INT_MAX) ∧
      (i = j → oracleCost d i j = 0) := by
  intro len
  induction len using Nat.strong_induction_on with
  | _ len ih =>
    intro i j hlen hij hj
    have key : ∀ fuel, len < fuel → ∀ m : MatrixChainBruteForce, m.dimensions_ = d →
        m.bruteForceCost fuel i j
          = some (if i = j then 0 else scanMin (oracleCand d i j) (j - i) i INT_MAX) := by
      intro fuel hfuel m hm
      cases fuel with
      | zero => omega
      | succ fuel =>
        simp only [MatrixChainBruteForce.bruteForceCost]
        by_cases e : i = j
        · rw [if_pos e, if_pos e]
        · rw [if_neg e, if_neg e, hm]
          apply bfLoop_eq _ d i j (by omega) hj (j - i) i INT_MAX (by omega)
          intro k1 a b
          constructor
          · exact (ih (k1 - i) (by omega) i k1 rfl a (by omega)).1 fuel (by omega) m hm
          · exact (ih (j - (k1 + 1)) (by omega) (k1 + 1) j rfl (by omega) hj).1 fuel
              (by omega) m hm
    have hval : oracleCost d i j
        = if i = j then 0 else scanMin (oracleCand d i j) (j - i) i INT_MAX := by
      unfold oracleCost
      rw [key (j + 1 - i) (by omega) _ rfl]
      rfl
    refine ⟨?_, ?_, ?_⟩
    · intro fuel hfuel m hm
      rw [key fuel hfuel m hm, hval]
    · intro h; rw [hval, if_neg (by omega)]
    · intro h; rw [hval, if_pos h]

theorem oracleCost_self (d : List (Int × Int)) (i : Nat) (hi : i < d.length) :
    oracleCost d i i = 0 :=
  (bruteForceCost_oracle d 0 i i (by omega) (le_refl i) hi).2.2 rfl

theorem oracleCost_unfold (d : List (Int × Int)) (i j : Nat) (hij : i < j)
    (hj : j < d.length) :
    oracleCost d i j = scanMin (oracleCand d i j) (j - i) i INT_MAX :=
  (bruteForceCost_oracle d (j - i) i j rfl (by omega) hj).2.1 hij

theorem bruteForceCost_eq (d : List (Int × Int)) (m : MatrixChainBruteForce)
    (hm : m.dimensions_ = d) (fuel i j : Nat) (hij : i ≤ j) (hj : j < d.length)
    (hfuel : j - i < fuel) : m.bruteForceCost fuel i j = some (oracleCost d i j) :=
  (bruteForceCost_oracle d (j - i) i j rfl hij hj).1 fuel hfuel m hm

/-! ## The memoised solver `calculateCost` -/

theorem Filled_sub {s : MatrixChain} {d : List (Int × Int)} {i j a b : Nat}
    (h : s.Filled d i j) (ha : i ≤ a) (hb : b ≤ j) : s.Filled d a b :=
  fun x y h1 h2 h3 => h x y (by omega) h2 (by omega)

theorem EntryDone_of_same {s s1 : MatrixChain} {d : List (Int × Int)} {x y : Nat}
    (hm : s1.memo_.get2 x y = s.memo_.get2 x y)
    (hs : s1.sequence_.get2 x y = s.sequence_.get2 x y)
    (h : s.EntryDone d x y) : s1.EntryDone d x y := by
  unfold MatrixChain.EntryDone at h ⊢
  rw [hm, hs]; exact h

theorem EntryDone_after_call {s s1 : MatrixChain} {d : List (Int × Int)} {a b x y : Nat}
    (hsame : s.SameOutside s1 a b) (hfill : s1.Filled d a b) (hxy : x < y)
    (h : s.EntryDone d x y) : s1.EntryDone d x y := by
  by_cases hin : a ≤ x ∧ x < y ∧ y ≤ b
  · exact hfill x y hin.1 hxy hin.2.2
  · exact EntryDone_of_same (hsame x y hin).1 (hsame x y hin).2 h

theorem Filled_after_call {s s1 : MatrixChain} {d : List (Int × Int)} {a b i j : Nat}
    (hsame : s.SameOutside s1 a b) (hfill : s1.Filled d a b)
    (h : s.Filled d i j) : s1.Filled d i j :=
  fun x y h1 h2 h3 => EntryDone_after_call hsame hfill h2 (h x y h1 h2 h3)

theorem MemoisedBelow_after_call {s s1 : MatrixChain} {d : List (Int × Int)}
    {a b i j : Nat} (hsame : s.SameOutside s1 a b) (hfill : s1.Filled d a b)
    (h : s.MemoisedBelow d i j) : s1.MemoisedBelow d i j := by
  intro x y h1 h2 h3 h4
  by_cases hin : a ≤ x ∧ x < y ∧ y ≤ b
  · right; exact Filled_sub hfill hin.1 hin.2.2
  · rcases h x y h1 h2 h3 h4 with e | e
    · left; rw [(hsame x y hin).1]; exact e
    · right; exact Filled_after_call hsame hfill e

theorem SameOutside_trans {s s1 s2 : MatrixChain} {a b a1 b1 i j : Nat}
    (h1 : s.SameOutside s1 a b) (h2 : s1.SameOutside s2 a1 b1)
    (ha : i ≤ a ∧ b ≤ j) (hb : i ≤ a1 ∧ b1 ≤ j) : s.SameOutside s2 i j := by
  intro x y hxy
  have e1 := h1 x y (by omega)
  have e2 := h2 x y (by omega)
  exact ⟨e2.1.trans e1.1, e2.2.trans e1.2⟩

theorem Filled_of_agree {s s1 : MatrixChain} {d : List (Int × Int)} {a b : Nat}
    (hag : ∀ x y, a ≤ x → x < y → y ≤ b →
      s1.memo_.get2 x y = s.memo_.get2 x y ∧ s1.sequence_.get2 x y = s.sequence_.get2 x y)
    (h : s.Filled d a b) : s1.Filled d a b :=
  fun x y h1 h2 h3 =>
    EntryDone_of_same (hag x y h1 h2 h3).1 (hag x y h1 h2 h3).2 (h x y h1 h2 h3)

theorem SameOutside_refl (s : MatrixChain) (i j : Nat) : s.SameOutside s i j :=
  fun _ _ _ => ⟨rfl, rfl⟩

theorem calcLoop_spec (d : List (Int × Int))
    (call : Nat → Nat → MatrixChain → Option (Int × MatrixChain)) (i j : Nat)
    (hij : i < j) (hj : j < d.length)
    (hcall : ∀ a b, i ≤ a → a ≤ b → b ≤ j → b - a < j - i → CallSpec d call a b) :
    ∀ c k m v (s : MatrixChain), k + c = j → i ≤ k → s.WellFormed d →
      s.MemoisedBelow d i j →
      (∀ k1, i ≤ k1 → k1 < k → s.Filled d i k1 ∧ s.Filled d (k1 + 1) j) →
      (m < INT_MAX → s.sequence_.get2 i j = some v) →
      ∃ s1, calcLoop call i j c k m s = some (scanMin (oracleCand d i j) c k m, s1) ∧
        s1.WellFormed d ∧
        (∀ k1, i ≤ k1 → k1 < j → s1.Filled d i k1 ∧ s1.Filled d (k1 + 1) j) ∧
        (scanMin (oracleCand d i j) c k m < INT_MAX →
          s1.sequence_.get2 i j = some (scanArg (oracleCand d i j) c k m v)) ∧
        s.SameOutside s1 i j ∧ s1.memo_.get2 i j = s.memo_.get2 i j := by
  intro c
  induction c with
  | zero =>
    intro k m v s hk hik wf _ hdone hseq
    have : k = j := by omega
    subst this
    exact ⟨s, rfl, wf, hdone, hseq, SameOutside_refl s i k, rfl⟩
  | succ c ih =>
    intro k m v s hk hik wf hbelow hdone hseq
    -- the call on `(i, k)`
    obtain ⟨s1, e1, wf1, fill1, same1⟩ := hcall i k (le_refl i) hik (by omega) (by omega) s wf
      (fun a b h1 h2 h3 => hbelow a b h1 h2 (by omega) (by omega))
    have hbelow1 := MemoisedBelow_after_call same1 fill1 hbelow
    -- the call on `(k + 1, j)`
    obtain ⟨s2, e2, wf2, fill2, same2⟩ := hcall (k + 1) j (by omega) (by omega) (le_refl j)
      (by omega) s1 wf1 (fun a b h1 h2 h3 => hbelow1 a b (by omega) h2 h3 (by omega))
    have hbelow2 := MemoisedBelow_after_call same2 fill2 hbelow1
    have hdone2 : ∀ k1, i ≤ k1 → k1 < k + 1 → s2.Filled d i k1 ∧ s2.Filled d (k1 + 1) j := by
      intro k1 a1 a2
      rcases Nat.eq_or_lt_of_le (Nat.le_of_lt_succ a2) with e | e
      · subst e; exact ⟨Filled_after_call same2 fill2 fill1, fill2⟩
      · have := hdone k1 a1 e
        exact ⟨Filled_after_call same2 fill2 (Filled_after_call same1 fill1 this.1),
          Filled_after_call same2 fill2 (Filled_after_call same1 fill1 this.2)⟩
    have hij2 : s2.memo_.get2 i j = s.memo_.get2 i j ∧
        s2.sequence_.get2 i j = s.sequence_.get2 i j := by
      have a1 := same1 i j (by omega)
      have a2 := same2 i j (by omega)
      exact ⟨a2.1.trans a1.1, a2.2.trans a1.2⟩
    have same02 : s.SameOutside s2 i j :=
      SameOutside_trans same1 same2 ⟨le_refl i, by omega⟩ ⟨by omega, le_refl j⟩
    have hcost : addInt (addInt (oracleCost d i k) (oracleCost d (k + 1) j))
        (mulInt (mulInt (rows d i) (cols d k)) (cols d j)) = oracleCand d i j k := rfl
    simp only [calcLoop, e1, e2, wf2.1, dimProduct_eq (show i < d.length by omega)
      (show k < d.length by omega) hj, hcost, scanMin, scanArg]
    by_cases hlt : oracleCand d i j k < m
    · rw [if_pos hlt, if_pos hlt, if_pos hlt]
      obtain ⟨q, hq, hqs, hqg⟩ := Table.set2_of_square (k : Int) wf2.2.2.2
        (show i < d.length by omega) hj
      rw [hq]
      have hag : ∀ x y, ¬ (x = i ∧ y = j) →
          ({ s2 with sequence_ := q } : MatrixChain).memo_.get2 x y = s2.memo_.get2 x y ∧
          ({ s2 with sequence_ := q } : MatrixChain).sequence_.get2 x y
            = s2.sequence_.get2 x y := by
        intro x y hxy
        exact ⟨rfl, by rw [hqg x y, if_neg hxy]⟩
      have wf3 : ({ s2 with sequence_ := q } : MatrixChain).WellFormed d :=
        ⟨wf2.1, wf2.2.1, wf2.2.2.1, hqs⟩
      have hbelow3 : ({ s2 with sequence_ := q } : MatrixChain).MemoisedBelow d i j := by
        intro a b h1 h2 h3 h4
        rcases hbelow2 a b h1 h2 h3 h4 with e | e
        · left; exact e
        · right
          exact Filled_of_agree (fun x y b1 b2 b3 => hag x y (by omega)) e
      have hdone3 : ∀ k1, i ≤ k1 → k1 < k + 1 →
          ({ s2 with sequence_ := q } : MatrixChain).Filled d i k1 ∧
          ({ s2 with sequence_ := q } : MatrixChain).Filled d (k1 + 1) j := by
        intro k1 a1 a2
        have := hdone2 k1 a1 a2
        exact ⟨Filled_of_agree (fun x y b1 b2 b3 => hag x y (by omega)) this.1,
          Filled_of_agree (fun x y b1 b2 b3 => hag x y (by omega)) this.2⟩
      obtain ⟨s4, r1, r2, r3, r4, r5, r6⟩ := ih (k + 1) (oracleCand d i j k) (k : Int)
        { s2 with sequence_ := q } (by omega) (by omega) wf3 hbelow3 hdone3
        (fun _ => by rw [hqg i j, if_pos ⟨rfl, rfl⟩])
      refine ⟨s4, r1, r2, r3, r4, ?_, r6.trans hij2.1⟩
      intro x y hxy
      have a1 := same02 x y hxy
      have a2 := hag x y (by omega)
      have a3 := r5 x y hxy
      exact ⟨a3.1.trans (a2.1.trans a1.1), a3.2.trans (a2.2.trans a1.2)⟩
    · rw [if_neg hlt, if_neg hlt, if_neg hlt]
      obtain ⟨s4, r1, r2, r3, r4, r5, r6⟩ := ih (k + 1) m v s2 (by omega) (by omega) wf2
        hbelow2 hdone2 (fun h => by rw [hij2.2]; exact hseq h)
      refine ⟨s4, r1, r2, r3, r4, ?_, r6.trans hij2.1⟩
      intro x y hxy
      have a1 := same02 x y hxy
      have a3 := r5 x y hxy
      exact ⟨a3.1.trans a1.1, a3.2.trans a1.2⟩

theorem calculateCost_spec (d : List (Int × Int)) :
    ∀ fuel i j, j - i < fuel → i ≤ j → j < d.length →
      CallSpec d (MatrixChain.calculateCost fuel) i j := by
  intro fuel
  induction fuel with
  | zero => intro i j h; omega
  | succ fuel ih =>
    intro i j hfuel hij hj s wf hmemo
    simp only [MatrixChain.calculateCost]
    by_cases e : i = j
    · subst e
      rw [if_pos rfl, oracleCost_self d i hj]
      exact ⟨s, rfl, wf, fun a b h1 h2 h3 => by omega, SameOutside_refl s i i⟩
    · rw [if_neg e]
      have hlt : i < j := by omega
      obtain ⟨m0, hm0⟩ := Table.get2_of_square wf.2.2.1 (show i < d.length by omega) hj
      rw [hm0]
      by_cases hm : m0 = -1
      · subst hm
        simp only [ne_eq, not_true_eq_false, if_false]
        obtain ⟨s1, r1, r2, r3, r4, r5, r6⟩ := calcLoop_spec d (MatrixChain.calculateCost fuel)
          i j hlt hj (fun a b h1 h2 h3 h4 => ih a b (by omega) h2 (by omega))
          (j - i) i INT_MAX (-1) s (by omega) (le_refl i) wf
          (fun a b h1 h2 h3 _ => hmemo a b h1 h2 h3)
          (fun k1 h1 h2 => by omega) (fun h => absurd h (lt_irrefl _))
        rw [r1]
        obtain ⟨t, ht, hts, htg⟩ := Table.set2_of_square (scanMin (oracleCand d i j) (j - i) i
          INT_MAX) r2.2.2.1 (show i < d.length by omega) hj
        simp only [ht]
        rw [← oracleCost_unfold d i j hlt hj] at htg r4 ⊢
        have hag : ∀ x y, ¬ (x = i ∧ y = j) →
            ({ s1 with memo_ := t } : MatrixChain).memo_.get2 x y = s1.memo_.get2 x y ∧
            ({ s1 with memo_ := t } : MatrixChain).sequence_.get2 x y
              = s1.sequence_.get2 x y := by
          intro x y hxy
          exact ⟨by rw [htg x y, if_neg hxy], rfl⟩
        refine ⟨{ s1 with memo_ := t }, rfl, ⟨r2.1, r2.2.1, hts, r2.2.2.2⟩, ?_, ?_⟩
        · intro a b h1 h2 h3
          by_cases hab : a = i ∧ b = j
          · obtain ⟨ha, hb⟩ := hab
            subst ha; subst hb
            exact ⟨by rw [htg a b, if_pos ⟨rfl, rfl⟩], r4⟩
          · have hs1 : s1.EntryDone d a b := by
              by_cases ha : a = i
              · subst ha
                exact (r3 b (by omega) (by omega)).1 a b (le_refl a) h2 (le_refl b)
              · exact (r3 (a - 1) (by omega) (by omega)).2 a b (by omega) h2 h3
            exact EntryDone_of_same (hag a b hab).1 (hag a b hab).2 hs1
        · intro x y hxy
          have a1 := r5 x y hxy
          have a2 := hag x y (by omega)
          exact ⟨a2.1.trans a1.1, a2.2.trans a1.2⟩
      · simp only [ne_eq, hm, not_false_eq_true, if_true]
        rcases hmemo i j (le_refl i) hlt (le_refl j) with h | h
        · rw [hm0] at h; injection h with h; exact absurd h hm
        · have h1 := (h i j (le_refl i) hlt (le_refl j)).1
          rw [hm0] at h1; injection h1 with h1
          rw [h1]
          exact ⟨s, rfl, wf, h, SameOutside_refl s i j⟩

/-- The solver built by the constructor on a non-empty chain. -/
theorem MatrixChain.new_solver_ok {d : List (Int × Int)} (h : d ≠ []) :
    MatrixChain.new d = .ok
      { dimensions_ := d, n_ := d.length
        memo_ := List.replicate d.length (List.replicate d.length (-1))
        sequence_ := List.replicate d.length (List.replicate d.length (-1)) } := by
  have : d.length ≠ 0 := fun e => h (List.length_eq_zero.mp e)
  simp [MatrixChain.new, MatrixChainBase.new, this]

theorem replicate_square (n : Nat) (v : Int) :
    Table.Square (List.replicate n (List.replicate n v)) n := by
  refine ⟨by simp, ?_⟩
  intro i row h
  rw [List.getElem?_replicate] at h
  split at h
  · injection h with h; rw [← h]; simp
  · exact absurd h (by simp)

theorem replicate_get2 (n : Nat) (v : Int) (i j : Nat) (hi : i < n) (hj : j < n) :
    Table.get2 (List.replicate n (List.replicate n v)) i j = some v := by
  simp [Table.get2, List.getElem?_replicate, hi, hj]

/-- The run of `findOptimalCost` on a freshly constructed solver. -/
theorem findOptimalCost_fresh (d : List (Int × Int)) (h : d ≠ []) :
    ∃ s s1, MatrixChain.new d = .ok s ∧
      s.findOptimalCost = some (oracleCost d 0 (d.length - 1), s1) ∧
      s1.WellFormed d ∧ s1.Filled d 0 (d.length - 1) ∧ s.SameOutside s1 0 (d.length - 1) ∧
      s.WellFormed d ∧
      s.memo_ = List.replicate d.length (List.replicate d.length (-1)) ∧
      s.sequence_ = List.replicate d.length (List.replicate d.length (-1)) := by
  have hlen : 0 < d.length := List.length_pos.mpr h
  have wf : ({ dimensions_ := d, n_ := d.length
               memo_ := List.replicate d.length (List.replicate d.length (-1))
               sequence_ := List.replicate d.length (List.replicate d.length (-1)) }
              : MatrixChain).WellFormed d :=
    ⟨rfl, rfl, replicate_square _ _, replicate_square _ _⟩
  obtain ⟨s1, r1, r2, r3, r4⟩ := calculateCost_spec d d.length 0 (d.length - 1) (by omega)
    (Nat.zero_le _) (by omega) _ wf
    (fun a b h1 h2 h3 => Or.inl (replicate_get2 _ _ a b (by omega) (by omega)))
  exact ⟨_, s1, MatrixChain.new_solver_ok h, r1, r2, r3, r4, wf, rfl, rfl⟩

theorem MatrixChainBruteForce.new_oracle_ok {d : List (Int × Int)} (h : d ≠ []) :
    MatrixChainBruteForce.new d = .ok { dimensions_ := d, n_ := d.length } := by
  have : d.length ≠ 0 := fun e => h (List.length_eq_zero.mp e)
  simp [MatrixChainBruteForce.new, MatrixChainBase.new, this]

/-- The oracle's entry point on a freshly constructed object. -/
theorem bruteForceMinCost_fresh (d : List (Int × Int)) (h : d ≠ []) :
    ∃ b, MatrixChainBruteForce.new d = .ok b ∧
      b.bruteForceMinCost = some (oracleCost d 0 (d.length - 1)) := by
  have hlen : 0 < d.length := List.length_pos.mpr h
  refine ⟨_, MatrixChainBruteForce.new_oracle_ok h, ?_⟩
  exact bruteForceCost_eq d _ rfl d.length 0 (d.length - 1) (Nat.zero_le _) (by omega)
    (by omega)

/-! ## The recurrence over unbounded integers -/

theorem minOver_le (f : Nat → Int) :
    ∀ c k k1, k ≤ k1 → k1 ≤ k + c → minOver f k c ≤ f k1 := by
  intro c
  induction c with
  | zero =>
    intro k k1 h1 h2
    have : k1 = k := by omega
    subst this; exact le_refl _
  | succ c ih =>
    intro k k1 h1 h2
    simp only [minOver]
    rcases Nat.eq_or_lt_of_le h1 with e | e
    · subst e; exact min_le_left _ _
    · exact le_trans (min_le_right _ _) (ih (k + 1) k1 e (by omega))

theorem minOver_mem (f : Nat → Int) :
    ∀ c k, ∃ k1, k ≤ k1 ∧ k1 ≤ k + c ∧ minOver f k c = f k1 := by
  intro c
  induction c with
  | zero => intro k; exact ⟨k, le_refl k, by omega, rfl⟩
  | succ c ih =>
    intro k
    simp only [minOver]
    obtain ⟨k1, h1, h2, h3⟩ := ih (k + 1)
    rcases min_choice (f k) (minOver f (k + 1) c) with e | e
    · exact ⟨k, le_refl k, by omega, e⟩
    · exact ⟨k1, by omega, by omega, e.trans h3⟩

theorem minOver_congr (f g : Nat → Int) :
    ∀ c k, (∀ k1, k ≤ k1 → k1 ≤ k + c → f k1 = g k1) → minOver f k c = minOver g k c := by
  intro c
  induction c with
  | zero => intro k h; exact h k (le_refl k) (by omega)
  | succ c ih =>
    intro k h
    simp only [minOver]
    rw [h k (le_refl k) (by omega), ih (k + 1) (fun k1 a b => h k1 (by omega) (by omega))]

/-- The running minimum started at `M` is the least value, when the values are
all below `M`. -/
theorem scanMin_eq_minOver (f g : Nat → Int) (M : Int) (c k : Nat)
    (hfg : ∀ k1, k ≤ k1 → k1 ≤ k + c → f k1 = g k1)
    (hlt : ∀ k1, k ≤ k1 → k1 ≤ k + c → g k1 < M) :
    scanMin f (c + 1) k M = minOver g k c := by
  apply le_antisymm
  · obtain ⟨k1, h1, h2, h3⟩ := minOver_mem g c k
    rw [h3, ← hfg k1 h1 h2]
    exact scanMin_le f (c + 1) k M k1 h1 (by omega)
  · rcases scanMin_cases f (c + 1) k M with e | ⟨k1, h1, h2, h3⟩
    · have a1 := scanMin_le f (c + 1) k M k (le_refl k) (by omega)
      have a2 := hlt k (le_refl k) (by omega)
      rw [hfg k (le_refl k) (by omega)] at a1
      omega
    · rw [h3, hfg k1 h1 (by omega)]
      exact minOver_le g c k k1 h1 (by omega)

theorem optCostF_eq (d : List (Int × Int)) :
    ∀ len i j, j - i = len → ∀ fuel, len < fuel →
      optCostF d fuel i j
        = if j ≤ i then 0 else minOver (candCost d i j) i (j - i - 1) := by
  intro len
  induction len using Nat.strong_induction_on with
  | _ len ih =>
    intro i j hlen fuel hfuel
    cases fuel with
    | zero => omega
    | succ fuel =>
      simp only [optCostF]
      by_cases e : j ≤ i
      · rw [if_pos e, if_pos e]
      · rw [if_neg e, if_neg e]
        apply minOver_congr
        intro k1 a b
        have e1 : optCostF d fuel i k1 = optCost d i k1 := by
          unfold optCost
          rw [ih (k1 - i) (by omega) i k1 rfl fuel (by omega),
            ih (k1 - i) (by omega) i k1 rfl (k1 + 1 - i) (by omega)]
        have e2 : optCostF d fuel (k1 + 1) j = optCost d (k1 + 1) j := by
          unfold optCost
          rw [ih (j - (k1 + 1)) (by omega) (k1 + 1) j rfl fuel (by omega),
            ih (j - (k1 + 1)) (by omega) (k1 + 1) j rfl (j + 1 - (k1 + 1)) (by omega)]
        simp only [candCost, e1, e2]

theorem optCost_self (d : List (Int × Int)) (i j : Nat) (h : j ≤ i) : optCost d i j = 0 := by
  unfold optCost
  cases j + 1 - i <;> simp [optCostF, h]

theorem optCost_unfold (d : List (Int × Int)) (i j : Nat) (h : i < j) :
    optCost d i j = minOver (candCost d i j) i (j - i - 1) := by
  unfold optCost
  rw [optCostF_eq d (j - i) i j rfl (j + 1 - i) (by omega), if_neg (by omega)]

theorem optCost_le_cand (d : List (Int × Int)) (i j k : Nat) (h1 : i ≤ k) (h2 : k < j) :
    optCost d i j ≤ candCost d i j k := by
  rw [optCost_unfold d i j (by omega)]
  exact minOver_le _ _ _ _ h1 (by omega)

theorem optCost_attained (d : List (Int × Int)) (i j : Nat) (h : i < j) :
    ∃ k, i ≤ k ∧ k < j ∧ optCost d i j = candCost d i j k := by
  rw [optCost_unfold d i j h]
  obtain ⟨k, h1, h2, h3⟩ := minOver_mem (candCost d i j) (j - i - 1) i
  exact ⟨k, h1, by omega, h3⟩

/-! ## The oracle on chains whose costs fit in an `int` -/

theorem wrapped_cand_eq {A B r c c1 : Int} (hA : 0 ≤ A) (hB : 0 ≤ B) (hr : 0 < r)
    (hc : 0 < c) (hc1 : 0 < c1) (h : A + B + r * c * c1 < 2147483647) :
    addInt (addInt A B) (mulInt (mulInt r c) c1) = A + B + r * c * c1 := by
  have hP : 0 < r * c := Int.mul_pos hr hc
  have hQ : r * c ≤ r * c * c1 := by nlinarith
  unfold addInt mulInt
  rw [wrapInt_eq (x := r * c) (by omega) (by omega)]
  rw [wrapInt_eq (x := r * c * c1) (by omega) (by omega)]
  rw [wrapInt_eq (x := A + B) (by omega) (by omega)]
  rw [wrapInt_eq (by omega) (by omega)]

theorem oracle_eq_opt (d : List (Int × Int)) (hv : ValidChain d) (hc : CostsBelowIntMax d) :
    ∀ len i j, j - i = len → i ≤ j → j < d.length →
      oracleCost d i j = optCost d i j ∧ 0 ≤ optCost d i j ∧
      ∀ k, i ≤ k → k < j → oracleCand d i j k = candCost d i j k ∧ 0 < candCost d i j k := by
  intro len
  induction len using Nat.strong_induction_on with
  | _ len ih =>
    intro i j hlen hij hj
    have hcand : ∀ k, i ≤ k → k < j →
        oracleCand d i j k = candCost d i j k ∧ 0 < candCost d i j k := by
      intro k h1 h2
      have a1 := ih (k - i) (by omega) i k rfl h1 (by omega)
      have a2 := ih (j - (k + 1)) (by omega) (k + 1) j rfl (by omega) hj
      have hlim := hc j hj k h2 i (by omega)
      have hr := (hv.2.1 i (by omega)).1
      have hck := (hv.2.1 k (by omega)).2
      have hcj := (hv.2.1 j hj).2
      unfold candCost INT_MAX at hlim
      unfold oracleCand candCost
      rw [a1.1, a2.1]
      refine ⟨wrapped_cand_eq a1.2.1 a2.2.1 hr hck hcj hlim, ?_⟩
      have := Int.mul_pos (Int.mul_pos hr hck) hcj
      have b1 := a1.2.1
      have b2 := a2.2.1
      omega
    by_cases e : i = j
    · subst e
      rw [oracleCost_self d i hj, optCost_self d i i (le_refl i)]
      exact ⟨rfl, le_refl 0, hcand⟩
    · have hlt : i < j := by omega
      obtain ⟨c, hcc⟩ : ∃ c, j - i = c + 1 := ⟨j - i - 1, by omega⟩
      have hc1 : j - i - 1 = c := by omega
      refine ⟨?_, ?_, hcand⟩
      · rw [oracleCost_unfold d i j hlt hj, optCost_unfold d i j hlt, hc1, hcc]
        apply scanMin_eq_minOver
        · intro k1 a b; exact (hcand k1 a (by omega)).1
        · intro k1 a b; exact hc j hj k1 (by omega) i (by omega)
      · obtain ⟨k, h1, h2, h3⟩ := optCost_attained d i j hlt
        rw [h3]
        exact le_of_lt (hcand k h1 h2).2

theorem oracleCost_eq_optCost (d : List (Int × Int)) (hv : ValidChain d)
    (hc : CostsBelowIntMax d) (i j : Nat) (hij : i ≤ j) (hj : j < d.length) :
    oracleCost d i j = optCost d i j :=
  (oracle_eq_opt d hv hc (j - i) i j rfl hij hj).1

theorem optCost_lt_INT_MAX (d : List (Int × Int)) (hc : CostsBelowIntMax d) (i j : Nat)
    (hij : i < j) (hj : j < d.length) : optCost d i j < INT_MAX := by
  obtain ⟨k, h1, h2, h3⟩ := optCost_attained d i j hij
  rw [h3]
  exact hc j hj k h2 i (by omega)

/-! ## Parenthesizations -/

theorem spans_ends : ∀ (t : PTree) (i j : Nat), t.spans i j = true →
    t.first = i ∧ t.last = j ∧ i ≤ j := by
  intro t
  induction t with
  | leaf m =>
    intro i j h
    simp only [PTree.spans, Bool.and_eq_true, beq_iff_eq] at h
    simp only [PTree.first, PTree.last]
    omega
  | node l r ihl ihr =>
    intro i j h
    simp only [PTree.spans, Bool.and_eq_true] at h
    have a1 := ihl i l.last h.1
    have a2 := ihr (l.last + 1) j h.2
    simp only [PTree.first, PTree.last]
    omega

/-- No parenthesization of `i..j` is cheaper than the recurrence's cost. -/
theorem optCost_le_tree (d : List (Int × Int)) : ∀ (t : PTree) (i j : Nat),
    t.spans i j = true → optCost d i j ≤ t.cost d := by
  intro t
  induction t with
  | leaf m =>
    intro i j h
    have := spans_ends _ i j h
    simp only [PTree.first, PTree.last] at this
    rw [optCost_self d i j (by omega)]
    exact le_refl _
  | node l r ihl ihr =>
    intro i j h
    have hs := h
    simp only [PTree.spans, Bool.and_eq_true] at hs
    have a1 := spans_ends l i l.last hs.1
    have a2 := spans_ends r (l.last + 1) j hs.2
    have b1 := ihl i l.last hs.1
    have b2 := ihr (l.last + 1) j hs.2
    have b3 := optCost_le_cand d i j l.last a1.2.2 (by omega)
    simp only [PTree.cost, a1.1, a2.2.1]
    unfold candCost at b3
    omega

/-- Some parenthesization of `i..j` costs exactly the recurrence's cost. -/
theorem optCost_tree (d : List (Int × Int)) :
    ∀ len i j, j - i = len → i ≤ j →
      ∃ t : PTree, t.spans i j = true ∧ t.cost d = optCost d i j := by
  intro len
  induction len using Nat.strong_induction_on with
  | _ len ih =>
    intro i j hlen hij
    by_cases e : i = j
    · subst e
      exact ⟨.leaf i, by simp [PTree.spans], by rw [optCost_self d i i (le_refl i)]; rfl⟩
    · obtain ⟨k, h1, h2, h3⟩ := optCost_attained d i j (by omega)
      obtain ⟨l, l1, l2⟩ := ih (k - i) (by omega) i k rfl h1
      obtain ⟨r, r1, r2⟩ := ih (j - (k + 1)) (by omega) (k + 1) j rfl (by omega)
      have a1 := spans_ends l i k l1
      have a2 := spans_ends r (k + 1) j r1
      refine ⟨.node l r, ?_, ?_⟩
      · simp only [PTree.spans, Bool.and_eq_true, a1.2.1]
        exact ⟨l1, r1⟩
      · simp only [PTree.cost, a1.1, a1.2.1, a2.2.1, l2, r2, h3, candCost]

/-! ## The pairwise estimator -/

theorem pairwiseSumUpTo_succ (d : List (Int × Int)) (m : Nat) :
    pairwiseSumUpTo d (m + 1) = pairwiseSumUpTo d m + rows d m * cols d m * cols d (m + 1) := by
  simp [pairwiseSumUpTo, List.range_succ]

theorem pairTerm_pos (d : List (Int × Int)) (hv : ValidChain d) (i : Nat)
    (hi : i < d.length - 1) : 0 < rows d i * cols d i * cols d (i + 1) := by
  have h1 := hv.2.1 i (by omega)
  have h2 := hv.2.1 (i + 1) (by omega)
  exact Int.mul_pos (Int.mul_pos h1.1 h1.2) h2.2

theorem pairwiseSumUpTo_mono (d : List (Int × Int)) (hv : ValidChain d) :
    ∀ c m, m + c ≤ d.length - 1 →
      0 ≤ pairwiseSumUpTo d m ∧ pairwiseSumUpTo d m ≤ pairwiseSumUpTo d (m + c) := by
  have hnn : ∀ m, m ≤ d.length - 1 → 0 ≤ pairwiseSumUpTo d m := by
    intro m
    induction m with
    | zero => intro _; simp [pairwiseSumUpTo]
    | succ m ih =>
      intro h
      rw [pairwiseSumUpTo_succ]
      have := pairTerm_pos d hv m (by omega)
      have := ih (by omega)
      omega
  intro c
  induction c with
  | zero => intro m h; exact ⟨hnn m (by omega), le_refl _⟩
  | succ c ih =>
    intro m h
    have a1 := ih m (by omega)
    have a2 := pairTerm_pos d hv (m + c) (by omega)
    rw [← Nat.add_assoc, pairwiseSumUpTo_succ]
    exact ⟨a1.1, by omega⟩

theorem wrapped_term_eq {A r c c1 : Int} (hA : 0 ≤ A) (hr : 0 < r) (hc : 0 < c)
    (hc1 : 0 < c1) (h : A + r * c * c1 ≤ 2147483647) :
    addInt A (mulInt (mulInt r c) c1) = A + r * c * c1 := by
  have hP : 0 < r * c := Int.mul_pos hr hc
  have hQ : r * c ≤ r * c * c1 := by nlinarith
  unfold addInt mulInt
  rw [wrapInt_eq (x := r * c) (by omega) (by omega)]
  rw [wrapInt_eq (x := r * c * c1) (by omega) (by omega)]
  rw [wrapInt_eq (by omega) (by omega)]

theorem naiveLoop_eq (d : List (Int × Int)) (hv : ValidChain d) :
    ∀ cnt i, i + cnt ≤ d.length - 1 → pairwiseSumUpTo d (i + cnt) ≤ INT_MAX →
      naiveLoop d cnt i (pairwiseSumUpTo d i) = some (pairwiseSumUpTo d (i + cnt)) := by
  intro cnt
  induction cnt with
  | zero => intro i _ _; rfl
  | succ cnt ih =>
    intro i h1 h2
    have hi : i < d.length := by omega
    have hi1 : i + 1 < d.length := by omega
    have e1 : (d[i]).1 = rows d i := by
      simp [rows, List.getD_eq_getElem?_getD, List.getElem?_eq_getElem hi]
    have e2 : (d[i]).2 = cols d i := by
      simp [cols, List.getD_eq_getElem?_getD, List.getElem?_eq_getElem hi]
    have e3 : (d[i + 1]).2 = cols d (i + 1) := by
      simp [cols, List.getD_eq_getElem?_getD, List.getElem?_eq_getElem hi1]
    simp only [naiveLoop, List.getElem?_eq_getElem hi, List.getElem?_eq_getElem hi1, e1, e2, e3]
    have a1 := pairwiseSumUpTo_mono d hv 0 i (by omega)
    have a2 := pairwiseSumUpTo_mono d hv cnt (i + 1) (by omega)
    have a3 := hv.2.1 i hi
    have a4 := hv.2.1 (i + 1) hi1
    have e4 : i + 1 + cnt = i + (cnt + 1) := by omega
    rw [e4] at a2
    have a5 := pairwiseSumUpTo_succ d i
    unfold INT_MAX at h2
    rw [wrapped_term_eq a1.1 a3.1 a3.2 a4.2 (by omega), ← a5, ← e4]
    exact ih (i + 1) (by omega) (by rw [e4]; exact h2)

/-- The pairwise estimator on a freshly constructed solver, when the sum fits
in an `int`. -/
theorem naive_fresh (d : List (Int × Int)) (hv : ValidChain d)
    (hs : pairwiseSum d ≤ INT_MAX) (s : MatrixChain) (hd : s.dimensions_ = d) :
    s.bruteForceMinCost = some (pairwiseSum d) := by
  have hlen : d.length ≠ 0 := fun e => hv.1 (List.length_eq_zero.mp e)
  unfold MatrixChain.bruteForceMinCost sizeMinusOne
  rw [hd, if_neg hlen]
  have := naiveLoop_eq d hv (d.length - 1) 0 (by omega) (by rw [Nat.zero_add]; exact hs)
  rw [Nat.zero_add] at this
  exact this

/-- The cost of multiplying from left to right bounds the recurrence's cost, so
the pairwise sum does too when no matrix has fewer rows than the first. -/
theorem optCost_le_pairwiseSumUpTo (d : List (Int × Int)) (hv : ValidChain d)
    (hr : ∀ i, i < d.length - 1 → rows d 0 ≤ rows d i) :
    ∀ j, j ≤ d.length - 1 → optCost d 0 j ≤ pairwiseSumUpTo d j := by
  intro j
  induction j with
  | zero => intro _; rw [optCost_self d 0 0 (le_refl 0)]; simp [pairwiseSumUpTo]
  | succ j ih =>
    intro h
    have a1 := ih (by omega)
    have a2 := optCost_le_cand d 0 (j + 1) j (Nat.zero_le _) (by omega)
    unfold candCost at a2
    rw [optCost_self d (j + 1) (j + 1) (le_refl _)] at a2
    rw [pairwiseSumUpTo_succ]
    have b1 := hr j (by omega)
    have b2 := hv.2.1 j (by omega)
    have b3 := hv.2.1 (j + 1) (by omega)
    have b4 : 0 < cols d j * cols d (j + 1) := Int.mul_pos b2.2 b3.2
    have b5 : rows d 0 * cols d j * cols d (j + 1)
        ≤ rows d j * cols d j * cols d (j + 1) := by
      rw [Int.mul_assoc, Int.mul_assoc]
      exact Int.mul_le_mul_of_nonneg_right b1 (le_of_lt b4)
    omega

/-! ## The tables after a run without overflow -/

/-- A final entry of the tables, read over unbounded integers: the cost of the
recurrence and its first minimising split. -/
theorem entryDone_opt (d : List (Int × Int)) (hv : ValidChain d) (hc : CostsBelowIntMax d)
    (s1 : MatrixChain) (i j : Nat) (hij : i < j) (hj : j < d.length)
    (hdone : s1.EntryDone d i j) :
    s1.memo_.get2 i j = some (optCost d i j) ∧
    ∃ k : Nat, s1.sequence_.get2 i j = some (k : Int) ∧ i ≤ k ∧ k < j ∧
      candCost d i j k = optCost d i j ∧
      ∀ k2, i ≤ k2 → k2 < k → optCost d i j < candCost d i j k2 := by
  have hW := oracle_eq_opt d hv hc (j - i) i j rfl (by omega) hj
  have hlt := optCost_lt_INT_MAX d hc i j hij hj
  have hun := oracleCost_unfold d i j hij hj
  obtain ⟨m1, m2⟩ := hdone
  rw [hW.1] at m1 m2 hun
  have m3 := m2 hlt
  obtain ⟨k, a1, a2, a3, a4, a5⟩ := scanArg_spec (oracleCand d i j) (j - i) i INT_MAX (-1)
    (by rw [← hun]; exact hlt)
  rw [← hun] at a4 a5
  refine ⟨m1, k, by rw [m3, a3], a1, by omega, ?_, ?_⟩
  · rw [← (hW.2.2 k a1 (by omega)).1]; exact a4
  · intro k2 b1 b2
    rw [← (hW.2.2 k2 b1 (by omega)).1]; exact a5 k2 b1 b2

theorem splitTree_spec (d : List (Int × Int)) (hv : ValidChain d) (hc : CostsBelowIntMax d)
    (s1 : MatrixChain) (hfill : s1.Filled d 0 (d.length - 1)) :
    ∀ len a b, b - a = len → a ≤ b → b < d.length → ∀ fuel, len < fuel →
      ∃ t, splitTree s1.sequence_ fuel (a : Int) (b : Int) = some t ∧
        t.spans a b = true ∧ t.cost d = optCost d a b := by
  intro len
  induction len using Nat.strong_induction_on with
  | _ len ih =>
    intro a b hlen hab hb fuel hfuel
    cases fuel with
    | zero => omega
    | succ fuel =>
      by_cases e : a = b
      · subst e
        refine ⟨.leaf a, by simp [splitTree], by simp [PTree.spans], ?_⟩
        rw [optCost_self d a a (le_refl a)]; rfl
      · have hlt : a < b := by omega
        obtain ⟨_, k, h1, h2, h3, h4, _⟩ := entryDone_opt d hv hc s1 a b hlt hb
          (hfill a b (Nat.zero_le _) hlt (by omega))
        obtain ⟨l, l1, l2, l3⟩ := ih (k - a) (by omega) a k rfl h2 (by omega) fuel (by omega)
        obtain ⟨r, r1, r2, r3⟩ := ih (b - (k + 1)) (by omega) (k + 1) b rfl (by omega) hb fuel
          (by omega)
        rw [Nat.cast_add, Nat.cast_one] at r1
        have a1 := spans_ends l a k l2
        have a2 := spans_ends r (k + 1) b r2
        have hne : ¬ ((a : Int) = (b : Int)) := by omega
        have hget : s1.sequence_.getInt (a : Int) (b : Int) = some (k : Int) := by
          unfold Table.getInt
          rw [if_pos ⟨by omega, by omega⟩, Int.toNat_ofNat, Int.toNat_ofNat]
          exact h1
        refine ⟨.node l r, ?_, ?_, ?_⟩
        · simp only [splitTree, if_neg hne, hget, l1, r1]
        · simp only [PTree.spans, Bool.and_eq_true, a1.2.1]
          exact ⟨l2, r2⟩
        · simp only [PTree.cost, a1.1, a1.2.1, a2.2.1, l3, r3, ← h4, candCost]

/-! ## Validation -/

theorem getElem?_dims (d : List (Int × Int)) (i : Nat) (hi : i < d.length) :
    d[i]? = some (rows d i, cols d i) := by
  simp [rows, cols, List.getD_eq_getElem?_getD, List.getElem?_eq_getElem hi]

theorem validateLoop_first (d : List (Int × Int)) (i : Nat) (hi : i < d.length - 1)
    (hoff : Offending d i) :
    ∀ cnt i0, i0 ≤ i → i < i0 + cnt → (∀ i1, i0 ≤ i1 → i1 < i → ¬ Offending d i1) →
      validateLoop d cnt i0 = some (.error
        (if cols d i ≠ rows d (i + 1) then Failure.NonConformableDimensions
         else Failure.ZeroDimension)) := by
  intro cnt
  induction cnt with
  | zero => intro i0 h1 h2; omega
  | succ cnt ih =>
    intro i0 h1 h2 hgood
    simp only [validateLoop, getElem?_dims d i0 (by omega), getElem?_dims d (i0 + 1) (by omega)]
    rcases Nat.eq_or_lt_of_le h1 with e | e
    · subst e
      by_cases hc : cols d i0 ≠ rows d (i0 + 1)
      · rw [if_pos hc, if_pos hc]
      · rw [if_neg hc, if_neg hc]
        have : rows d i0 = 0 ∨ cols d i0 = 0 := by
          rcases hoff with h | h
          · exact absurd h hc
          · exact h
        rw [if_pos this]
    · have hg := hgood i0 (le_refl i0) e
      unfold Offending at hg
      rw [if_neg (fun h => hg (Or.inl h)), if_neg (fun h => hg (Or.inr h))]
      exact ih (i0 + 1) e (by omega) (fun i1 a b => hgood i1 (by omega) b)

theorem validate_nonempty (d : List (Int × Int)) (h : d ≠ []) :
    validate d = validateLoop d (d.length - 1) 0 := by
  have : d.length ≠ 0 := fun e => h (List.length_eq_zero.mp e)
  simp [validate, MatrixChainBase.new, MatrixChainBase.validateDimensions, sizeMinusOne, this]

/-! ## Validation: acceptance -/

theorem validateLoop_ok (d : List (Int × Int)) :
    ∀ cnt i0, i0 + cnt ≤ d.length - 1 → 0 < d.length →
      (∀ i1, i0 ≤ i1 → i1 < i0 + cnt → ¬ Offending d i1) →
      validateLoop d cnt i0 = some (.ok ()) := by
  intro cnt
  induction cnt with
  | zero => intro i0 _ _ _; rfl
  | succ cnt ih =>
    intro i0 h1 h2 hgood
    simp only [validateLoop, getElem?_dims d i0 (by omega), getElem?_dims d (i0 + 1) (by omega)]
    have hg := hgood i0 (le_refl i0) (by omega)
    unfold Offending at hg
    rw [if_neg (fun h => hg (Or.inl h)), if_neg (fun h => hg (Or.inr h))]
    exact ih (i0 + 1) (by omega) h2 (fun i1 a b => hgood i1 (by omega) (by omega))

theorem validateLoop_congr (d d1 : List (Int × Int)) (hlen : d.length = d1.length)
    (hrows : ∀ i, i < d.length → rows d i = rows d1 i)
    (hcols : ∀ i, i < d.length - 1 → cols d i = cols d1 i) :
    ∀ cnt i0, i0 + cnt ≤ d.length - 1 → validateLoop d cnt i0 = validateLoop d1 cnt i0 := by
  intro cnt
  induction cnt with
  | zero => intro i0 _; rfl
  | succ cnt ih =>
    intro i0 h
    simp only [validateLoop, getElem?_dims d i0 (by omega), getElem?_dims d (i0 + 1) (by omega),
      getElem?_dims d1 i0 (by omega), getElem?_dims d1 (i0 + 1) (by omega)]
    rw [hrows i0 (by omega), hrows (i0 + 1) (by omega), hcols i0 (by omega),
      ih (i0 + 1) (by omega)]

theorem validate_ok_iff (d : List (Int × Int)) (hd : d ≠ []) :
    validate d = some (.ok ()) ↔ ∀ i, i < d.length - 1 → ¬ Offending d i := by
  have hlen : 0 < d.length := List.length_pos.mpr hd
  rw [validate_nonempty d hd]
  constructor
  · intro h i hi hoff
    have hex : ∃ i, i < d.length - 1 ∧ Offending d i := ⟨i, hi, hoff⟩
    have h1 := Nat.find_spec hex
    have h2 : ∀ i1, i1 < Nat.find hex → ¬ Offending d i1 := by
      intro i1 hlt ho
      exact Nat.find_min hex hlt ⟨by omega, ho⟩
    rw [validateLoop_first d (Nat.find hex) h1.1 h1.2 (d.length - 1) 0 (Nat.zero_le _)
      (by omega) (fun i1 _ b => h2 i1 b)] at h
    injection h with h
    cases h
  · intro h
    exact validateLoop_ok d (d.length - 1) 0 (by omega) hlen
      (fun i1 _ b => h i1 (by omega))

/-! ## Chains of identical square matrices -/

theorem scanMin_const (f : Nat → Int) (V M : Int) (c k : Nat) (hc : 0 < c)
    (hf : ∀ k1, k ≤ k1 → k1 < k + c → f k1 = V) (hV : V ≤ M) : scanMin f c k M = V := by
  have h1 := scanMin_le f c k M k (le_refl k) (by omega)
  rw [hf k (le_refl k) (by omega)] at h1
  rcases scanMin_cases f c k M with e | ⟨k1, a1, a2, a3⟩
  · omega
  · rw [a3, hf k1 a1 a2]

theorem wrapped_cand_eq_le {A B r c c1 : Int} (hA : 0 ≤ A) (hB : 0 ≤ B) (hr : 0 < r)
    (hc : 0 < c) (hc1 : 0 < c1) (h : A + B + r * c * c1 ≤ 2147483647) :
    addInt (addInt A B) (mulInt (mulInt r c) c1) = A + B + r * c * c1 := by
  have hP : 0 < r * c := Int.mul_pos hr hc
  have hQ : r * c ≤ r * c * c1 := by nlinarith
  unfold addInt mulInt
  rw [wrapInt_eq (x := r * c) (by omega) (by omega)]
  rw [wrapInt_eq (x := r * c * c1) (by omega) (by omega)]
  rw [wrapInt_eq (x := A + B) (by omega) (by omega)]
  rw [wrapInt_eq (by omega) (by omega)]

theorem rows_replicate (n : Nat) (p : Int × Int) (i : Nat) (hi : i < n) :
    rows (List.replicate n p) i = p.1 := by
  simp [rows, List.getD_eq_getElem?_getD, List.getElem?_replicate, hi]

theorem cols_replicate (n : Nat) (p : Int × Int) (i : Nat) (hi : i < n) :
    cols (List.replicate n p) i = p.2 := by
  simp [cols, List.getD_eq_getElem?_getD, List.getElem?_replicate, hi]

theorem validChain_square (n : Nat) (d : Int) (hn : 1 ≤ n) (hd : 1 ≤ d) :
    ValidChain (List.replicate n (d, d)) := by
  refine ⟨?_, ?_, ?_⟩
  · intro e
    have := congrArg List.length e
    simp at this
    omega
  · intro i hi
    rw [List.length_replicate] at hi
    rw [rows_replicate n _ i hi, cols_replicate n _ i hi]
    exact ⟨by omega, by omega⟩
  · intro i hi
    rw [List.length_replicate] at hi
    rw [rows_replicate n _ (i + 1) (by omega), cols_replicate n _ i (by omega)]

theorem oracleCost_square (n : Nat) (d : Int) (hd : 1 ≤ d)
    (hfit : ((n - 1 : Nat) : Int) * (d * d * d) ≤ 2147483647) :
    ∀ len i j, j - i = len → i ≤ j → j < n →
      oracleCost (List.replicate n (d, d)) i j = ((j - i : Nat) : Int) * (d * d * d) := by
  have hD : 0 < d * d * d := Int.mul_pos (Int.mul_pos (by omega) (by omega)) (by omega)
  intro len
  induction len using Nat.strong_induction_on with
  | _ len ih =>
    intro i j hlen hij hj
    have hjl : j < (List.replicate n (d, d)).length := by rw [List.length_replicate]; exact hj
    by_cases e : i = j
    · subst e
      rw [oracleCost_self _ i hjl]
      simp
    · have hlt : i < j := by omega
      rw [oracleCost_unfold _ i j hlt hjl]
      apply scanMin_const _ _ _ _ _ (by omega)
      · intro k a1 a2
        unfold oracleCand
        rw [ih (k - i) (by omega) i k rfl a1 (by omega),
          ih (j - (k + 1)) (by omega) (k + 1) j rfl (by omega) hj,
          rows_replicate n _ i (by omega), cols_replicate n _ k (by omega),
          cols_replicate n _ j hj]
        dsimp only
        have e1 : ((j - i : Nat) : Int)
            = ((k - i : Nat) : Int) + ((j - (k + 1) : Nat) : Int) + 1 := by omega
        have hsum : ((k - i : Nat) : Int) * (d * d * d)
            + ((j - (k + 1) : Nat) : Int) * (d * d * d) + d * d * d
            = ((j - i : Nat) : Int) * (d * d * d) := by rw [e1]; ring
        have hle : ((j - i : Nat) : Int) * (d * d * d)
            ≤ ((n - 1 : Nat) : Int) * (d * d * d) :=
          Int.mul_le_mul_of_nonneg_right (by omega) (le_of_lt hD)
        have hA : 0 ≤ ((k - i : Nat) : Int) * (d * d * d) :=
          Int.mul_nonneg (by omega) (le_of_lt hD)
        have hB : 0 ≤ ((j - (k + 1) : Nat) : Int) * (d * d * d) :=
          Int.mul_nonneg (by omega) (le_of_lt hD)
        rw [wrapped_cand_eq_le hA hB (by omega) (by omega) (by omega) (by omega), hsum]
      · unfold INT_MAX
        have hle : ((j - i : Nat) : Int) * (d * d * d)
            ≤ ((n - 1 : Nat) : Int) * (d * d * d) :=
          Int.mul_le_mul_of_nonneg_right (by omega) (le_of_lt hD)
        omega

theorem pairwiseSumUpTo_square (n : Nat) (d : Int) :
    ∀ m, m ≤ n - 1 →
      pairwiseSumUpTo (List.replicate n (d, d)) m = (m : Int) * (d * d * d) := by
  intro m
  induction m with
  | zero => intro _; simp [pairwiseSumUpTo]
  | succ m ih =>
    intro h
    rw [pairwiseSumUpTo_succ, ih (by omega), rows_replicate n _ m (by omega),
      cols_replicate n _ m (by omega), cols_replicate n _ (m + 1) (by omega)]
    dsimp only
    push_cast
    ring

/-! ## A second run of the solver -/

theorem Table.ext_of_square {t t1 : Table} {n : Nat} (h : t.Square n) (h1 : t1.Square n)
    (hg : ∀ a b, a < n → b < n → t.get2 a b = t1.get2 a b) : t = t1 := by
  apply List.ext_getElem?
  intro a
  by_cases ha : a < n
  · have ha0 : a < t.length := by rw [h.1]; exact ha
    have ha1 : a < t1.length := by rw [h1.1]; exact ha
    have hr0 := h.2 a t[a] (List.getElem?_eq_getElem ha0)
    have hr1 := h1.2 a t1[a] (List.getElem?_eq_getElem ha1)
    rw [List.getElem?_eq_getElem ha0, List.getElem?_eq_getElem ha1]
    congr 1
    apply List.ext_getElem?
    intro b
    by_cases hb : b < n
    · have := hg a b ha hb
      simp only [Table.get2, List.getElem?_eq_getElem ha0, List.getElem?_eq_getElem ha1] at this
      exact this
    · rw [List.getElem?_eq_none (by omega), List.getElem?_eq_none (by omega)]
  · rw [List.getElem?_eq_none (by rw [h.1]; omega), List.getElem?_eq_none (by rw [h1.1]; omega)]

/-- On a solver whose strict sub-ranges of `i..j` all have final entries, and
on which the recursive calls change nothing, the loop only writes
`sequence_[i][j]`. -/
theorem calcLoop_fixed (d : List (Int × Int))
    (call : Nat → Nat → MatrixChain → Option (Int × MatrixChain)) (i j : Nat)
    (hij : i < j) (hj : j < d.length)
    (hcall : ∀ a b, i ≤ a → a ≤ b → b ≤ j → b - a < j - i →
      ∀ s : MatrixChain, s.WellFormed d → s.Filled d a b →
        call a b s = some (oracleCost d a b, s)) :
    ∀ c k m v (s : MatrixChain), k + c = j → i ≤ k → s.WellFormed d →
      (∀ a b, i ≤ a → a < b → b ≤ j → b - a < j - i → s.EntryDone d a b) →
      (m < INT_MAX → s.sequence_.get2 i j = some v) →
      ∃ q : Table, calcLoop call i j c k m s
          = some (scanMin (oracleCand d i j) c k m, { s with sequence_ := q }) ∧
        q.Square d.length ∧
        (∀ x y, ¬ (x = i ∧ y = j) → q.get2 x y = s.sequence_.get2 x y) ∧
        (scanMin (oracleCand d i j) c k m < INT_MAX →
          q.get2 i j = some (scanArg (oracleCand d i j) c k m v)) := by
  intro c
  induction c with
  | zero =>
    intro k m v s hk hik wf _ hseq
    exact ⟨s.sequence_, rfl, wf.2.2.2, fun _ _ _ => rfl, hseq⟩
  | succ c ih =>
    intro k m v s hk hik wf hdone hseq
    have e1 := hcall i k (le_refl i) hik (by omega) (by omega) s wf
      (fun a b h1 h2 h3 => hdone a b h1 h2 (by omega) (by omega))
    have e2 := hcall (k + 1) j (by omega) (by omega) (le_refl j) (by omega) s wf
      (fun a b h1 h2 h3 => hdone a b (by omega) h2 h3 (by omega))
    have hcost : addInt (addInt (oracleCost d i k) (oracleCost d (k + 1) j))
        (mulInt (mulInt (rows d i) (cols d k)) (cols d j)) = oracleCand d i j k := rfl
    simp only [calcLoop, e1, e2, wf.1, dimProduct_eq (show i < d.length by omega)
      (show k < d.length by omega) hj, hcost, scanMin, scanArg]
    by_cases hlt : oracleCand d i j k < m
    · rw [if_pos hlt, if_pos hlt, if_pos hlt]
      obtain ⟨q1, hq1, hq1s, hq1g⟩ := Table.set2_of_square (k : Int) wf.2.2.2
        (show i < d.length by omega) hj
      rw [hq1]
      have wf3 : ({ s with sequence_ := q1 } : MatrixChain).WellFormed d :=
        ⟨wf.1, wf.2.1, wf.2.2.1, hq1s⟩
      have hdone3 : ∀ a b, i ≤ a → a < b → b ≤ j → b - a < j - i →
          ({ s with sequence_ := q1 } : MatrixChain).EntryDone d a b := by
        intro a b h1 h2 h3 h4
        have h0 := hdone a b h1 h2 h3 h4
        refine ⟨h0.1, fun h => ?_⟩
        show q1.get2 a b = _
        rw [hq1g a b, if_neg (by omega)]
        exact h0.2 h
      obtain ⟨q, r1, r2, r3, r4⟩ := ih (k + 1) (oracleCand d i j k) (k : Int)
        { s with sequence_ := q1 } (by omega) (by omega) wf3 hdone3
        (fun _ => by show q1.get2 i j = some (k : Int); rw [hq1g i j, if_pos ⟨rfl, rfl⟩])
      refine ⟨q, r1, r2, ?_, r4⟩
      intro x y hxy
      rw [r3 x y hxy]
      show q1.get2 x y = s.sequence_.get2 x y
      rw [hq1g x y, if_neg hxy]
    · rw [if_neg hlt, if_neg hlt, if_neg hlt]
      exact ih (k + 1) m v s (by omega) (by omega) wf hdone hseq

/-- A call on a range whose sub-ranges all have final entries returns the
oracle's cost and leaves the solver exactly as it was. -/
theorem calculateCost_fixed (d : List (Int × Int)) :
    ∀ fuel i j, j - i < fuel → i ≤ j → j < d.length →
      ∀ s : MatrixChain, s.WellFormed d → s.Filled d i j →
        MatrixChain.calculateCost fuel i j s = some (oracleCost d i j, s) := by
  intro fuel
  induction fuel with
  | zero => intro i j h; omega
  | succ fuel ih =>
    intro i j hfuel hij hj s wf hfill
    simp only [MatrixChain.calculateCost]
    by_cases e : i = j
    · subst e
      rw [if_pos rfl, oracleCost_self d i hj]
    · rw [if_neg e]
      have hlt : i < j := by omega
      have hdone := hfill i j (le_refl i) hlt (le_refl j)
      rw [hdone.1]
      by_cases hm : oracleCost d i j = -1
      · simp only [hm, ne_eq, not_true_eq_false, if_false]
        obtain ⟨q, r1, r2, r3, r4⟩ := calcLoop_fixed d (MatrixChain.calculateCost fuel) i j
          hlt hj (fun a b h1 h2 h3 h4 => ih a b (by omega) h2 (by omega))
          (j - i) i INT_MAX (-1) s (by omega) (le_refl i) wf
          (fun a b h1 h2 h3 _ => hfill a b h1 h2 h3) (fun h => absurd h (lt_irrefl _))
        rw [← oracleCost_unfold d i j hlt hj] at r1 r4
        have hltmax : oracleCost d i j < INT_MAX := by rw [hm]; decide
        have hq : q = s.sequence_ := by
          apply Table.ext_of_square r2 wf.2.2.2
          intro a b _ _
          by_cases hab : a = i ∧ b = j
          · obtain ⟨ha, hb⟩ := hab
            subst ha; subst hb
            rw [r4 hltmax, hdone.2 hltmax]
          · exact r3 a b hab
        rw [hq, hm] at r1
        rw [r1]
        obtain ⟨t, ht, hts, htg⟩ := Table.set2_of_square (-1 : Int) wf.2.2.1
          (show i < d.length by omega) hj
        have htm : t = s.memo_ := by
          apply Table.ext_of_square hts wf.2.2.1
          intro a b _ _
          rw [htg a b]
          by_cases hab : a = i ∧ b = j
          · obtain ⟨ha, hb⟩ := hab
            subst ha; subst hb
            rw [if_pos ⟨rfl, rfl⟩, hdone.1, hm]
          · rw [if_neg hab]
        simp only [ht, htm]
      · simp only [ne_eq, hm, not_false_eq_true, if_true]

/-! ## The text of `printMatrixSequence` -/

theorem concatRange_congr (f g : Nat → String) :
    ∀ c k, (∀ k1, k ≤ k1 → k1 < k + c → f k1 = g k1) → concatRange f c k = concatRange g c k := by
  intro c
  induction c with
  | zero => intro k _; rfl
  | succ c ih =>
    intro k h
    simp only [concatRange]
    rw [h k (le_refl k) (by omega), ih (k + 1) (fun k1 a b => h k1 (by omega) (by omega))]

theorem outTextF_eq :
    ∀ len i j, j - i = len → i ≤ j → ∀ fuel, len < fuel →
      outTextF fuel i j
        = if i = j then "C" ++ toString (i + 1)
          else "(" ++ concatRange (fun k => outText i k ++ " x " ++ outText (k + 1) j)
                  (j - i) i ++ ")" := by
  intro len
  induction len using Nat.strong_induction_on with
  | _ len ih =>
    intro i j hlen hij fuel hfuel
    cases fuel with
    | zero => omega
    | succ fuel =>
      simp only [outTextF]
      by_cases e : i = j
      · rw [if_pos e, if_pos e]
      · rw [if_neg e, if_neg e]
        congr 2
        apply concatRange_congr
        intro k1 a b
        have e1 : outTextF fuel i k1 = outText i k1 := by
          unfold outText
          rw [ih (k1 - i) (by omega) i k1 rfl a fuel (by omega),
            ih (k1 - i) (by omega) i k1 rfl a (k1 + 1 - i) (by omega)]
        have e2 : outTextF fuel (k1 + 1) j = outText (k1 + 1) j := by
          unfold outText
          rw [ih (j - (k1 + 1)) (by omega) (k1 + 1) j rfl (by omega) fuel (by omega),
            ih (j - (k1 + 1)) (by omega) (k1 + 1) j rfl (by omega) (j + 1 - (k1 + 1))
              (by omega)]
        rw [e1, e2]

theorem outText_self (i : Nat) : outText i i = "C" ++ toString (i + 1) := by
  unfold outText
  rw [outTextF_eq 0 i i (by omega) (le_refl i) (i + 1 - i) (by omega), if_pos rfl]

theorem outText_unfold (i j : Nat) (h : i < j) :
    outText i j = "(" ++ concatRange (fun k => outText i k ++ " x " ++ outText (k + 1) j)
      (j - i) i ++ ")" := by
  show outTextF (j + 1 - i) i j = _
  rw [outTextF_eq (j - i) i j rfl (by omega) (j + 1 - i) (by omega), if_neg (by omega)]

theorem label_eq (i : Nat) (h : i < 2147483647) :
    toString (addInt (i : Int) 1) = toString (i + 1) := by
  have e : addInt (i : Int) 1 = ((i + 1 : Nat) : Int) := by
    unfold addInt
    rw [wrapInt_eq (by omega) (by omega)]
    push_cast
    rfl
  rw [e]
  rfl

theorem printLoop_eq (call : Nat → Nat → Option String) (o : Nat → Nat → String) (i j : Nat) :
    ∀ c k out, (∀ k1, k ≤ k1 → k1 < k + c →
        call i k1 = some (o i k1) ∧ call (k1 + 1) j = some (o (k1 + 1) j)) →
      printLoop call i j c k out
        = some (out ++ concatRange (fun k => o i k ++ " x " ++ o (k + 1) j) c k) := by
  intro c
  induction c with
  | zero => intro k out _; simp [printLoop, concatRange]
  | succ c ih =>
    intro k out h
    obtain ⟨h1, h2⟩ := h k (le_refl k) (by omega)
    simp only [printLoop, h1, h2, concatRange]
    rw [ih (k + 1) _ (fun k1 a b => h k1 (by omega) (by omega))]
    simp only [String.append_assoc]

theorem printMatrixSequence_eq (m : MatrixChainBase) :
    ∀ len i j, j - i = len → i ≤ j → j < 2147483647 → ∀ fuel, len < fuel →
      m.printMatrixSequence fuel i j = some (outText i j) := by
  intro len
  induction len using Nat.strong_induction_on with
  | _ len ih =>
    intro i j hlen hij hj fuel hfuel
    cases fuel with
    | zero => omega
    | succ fuel =>
      simp only [MatrixChainBase.printMatrixSequence]
      by_cases e : i = j
      · subst e
        rw [if_pos rfl, outText_self, label_eq i hj]
      · rw [if_neg e, outText_unfold i j (by omega)]
        rw [printLoop_eq _ outText i j (j - i) i "(" (fun k1 a b =>
          ⟨ih (k1 - i) (by omega) i k1 rfl a (by omega) fuel (by omega),
            ih (j - (k1 + 1)) (by omega) (k1 + 1) j rfl (by omega) hj fuel (by omega)⟩)]

/-! ## The text of `printOptimalSequence` -/

theorem entry_split (d : List (Int × Int)) (s1 : MatrixChain) (i j : Nat) (hij : i < j)
    (hj : j < d.length) (hdone : s1.EntryDone d i j) (hlt : oracleCost d i j < INT_MAX) :
    ∃ k : Nat, s1.sequence_.get2 i j = some (k : Int) ∧ i ≤ k ∧ k < j := by
  have hun := oracleCost_unfold d i j hij hj
  obtain ⟨k, a1, a2, a3, _⟩ := scanArg_spec (oracleCand d i j) (j - i) i INT_MAX (-1)
    (by rw [← hun]; exact hlt)
  exact ⟨k, by rw [hdone.2 hlt, a3], a1, by omega⟩

theorem oracleCost_lt_of_computed (d : List (Int × Int)) (hc : ComputedCostsBelowIntMax d)
    (i j : Nat) (hij : i < j) (hj : j < d.length) : oracleCost d i j < INT_MAX := by
  rw [oracleCost_unfold d i j hij hj]
  exact lt_of_le_of_lt (scanMin_le _ (j - i) i INT_MAX i (le_refl i) (by omega))
    (hc j hj i hij i (by omega))

theorem computed_of_valid (d : List (Int × Int)) (hv : ValidChain d)
    (hc : CostsBelowIntMax d) : ComputedCostsBelowIntMax d := by
  intro j hj k hk i hi
  rw [((oracle_eq_opt d hv hc (j - i) i j rfl (by omega) hj).2.2 k (by omega) hk).1]
  exact hc j hj k hk i hi

theorem optCost_ge_len (d : List (Int × Int)) (hv : ValidChain d) :
    ∀ len i j, j - i = len → i ≤ j → j < d.length → ((j - i : Nat) : Int) ≤ optCost d i j := by
  intro len
  induction len using Nat.strong_induction_on with
  | _ len ih =>
    intro i j hlen hij hj
    by_cases e : i = j
    · subst e
      rw [optCost_self d i i (le_refl i)]
      simp
    · obtain ⟨k, h1, h2, h3⟩ := optCost_attained d i j (by omega)
      have a1 := ih (k - i) (by omega) i k rfl h1 (by omega)
      have a2 := ih (j - (k + 1)) (by omega) (k + 1) j rfl (by omega) hj
      have hr := (hv.2.1 i (by omega)).1
      have hck := (hv.2.1 k (by omega)).2
      have hcj := (hv.2.1 j hj).2
      have hp : 0 < rows d i * cols d k * cols d j := Int.mul_pos (Int.mul_pos hr hck) hcj
      rw [h3]
      unfold candCost
      omega

theorem length_fits_int (d : List (Int × Int)) (hv : ValidChain d) (hc : CostsBelowIntMax d) :
    d.length ≤ 2147483647 := by
  have hlen : 0 < d.length := List.length_pos.mpr hv.1
  by_cases h1 : d.length = 1
  · omega
  · have a1 := optCost_ge_len d hv (d.length - 1) 0 (d.length - 1) rfl (Nat.zero_le _)
      (by omega)
    have a2 := optCost_lt_INT_MAX d hc 0 (d.length - 1) (by omega) (by omega)
    unfold INT_MAX at a2
    omega

theorem addInt_succ (k : Nat) (h : k < 2147483647) : addInt (k : Int) 1 = ((k + 1 : Nat) : Int) := by
  unfold addInt
  rw [wrapInt_eq (by omega) (by omega)]
  push_cast
  rfl

/-- With a split in `[a, b-1]` recorded for every range `a < b`,
`printOptimalSequence` writes the text of a parenthesization of `a..b`, which
is the one read off the split table. -/
theorem printOptimalSequence_spec (d : List (Int × Int)) (s1 : MatrixChain)
    (hn : d.length ≤ 2147483647)
    (hs : ∀ a b, a < b → b < d.length →
      ∃ k : Nat, s1.sequence_.get2 a b = some (k : Int) ∧ a ≤ k ∧ k < b) :
    ∀ len a b, b - a = len → a ≤ b → b < d.length → ∀ fuel, len < fuel →
      ∃ t : PTree, s1.printOptimalSequence fuel (a : Int) (b : Int) = some t.render ∧
        t.spans a b = true ∧ splitTree s1.sequence_ fuel (a : Int) (b : Int) = some t := by
  intro len
  induction len using Nat.strong_induction_on with
  | _ len ih =>
    intro a b hlen hab hb fuel hfuel
    cases fuel with
    | zero => omega
    | succ fuel =>
      by_cases e : a = b
      · subst e
        refine ⟨.leaf a, ?_, by simp [PTree.spans], by simp [splitTree]⟩
        simp only [MatrixChain.printOptimalSequence, if_true, PTree.render,
          label_eq a (by omega)]
      · have hlt : a < b := by omega
        obtain ⟨k, h1, h2, h3⟩ := hs a b hlt hb
        obtain ⟨l, l1, l2, l3⟩ := ih (k - a) (by omega) a k rfl h2 (by omega) fuel (by omega)
        obtain ⟨r, r1, r2, r3⟩ := ih (b - (k + 1)) (by omega) (k + 1) b rfl (by omega) hb fuel
          (by omega)
        have a1 := spans_ends l a k l2
        have hne : ¬ ((a : Int) = (b : Int)) := by omega
        have hget : s1.sequence_.getInt (a : Int) (b : Int) = some (k : Int) := by
          unfold Table.getInt
          rw [if_pos ⟨by omega, by omega⟩, Int.toNat_ofNat, Int.toNat_ofNat]
          exact h1
        refine ⟨.node l r, ?_, ?_, ?_⟩
        · simp only [MatrixChain.printOptimalSequence, if_neg hne, hget, l1,
            addInt_succ k (by omega), r1, PTree.render]
        · simp only [PTree.spans, Bool.and_eq_true, a1.2.1]
          exact ⟨l2, r2⟩
        · rw [Nat.cast_add, Nat.cast_one] at r3
          simp only [splitTree, if_neg hne, hget, l3, r3]

/-! ## Labels and parentheses in a rendered parenthesization -/

theorem ite_noParen (c : Prop) [Decidable c] (a b : Char) (ha : isParen a = false)
    (hb : isParen b = false) : isParen (if c then a else b) = false := by
  split <;> assumption

theorem digitChar_noParen (m : Nat) : isParen (Nat.digitChar m) = false := by
  unfold Nat.digitChar
  repeat (first | exact (by decide) | apply ite_noParen)

theorem toDigitsCore_noParen :
    ∀ fuel n (ds : List Char), (∀ c ∈ ds, isParen c = false) →
      ∀ c ∈ Nat.toDigitsCore 10 fuel n ds, isParen c = false := by
  intro fuel
  induction fuel with
  | zero => intro n ds h c hc; exact h c hc
  | succ fuel ih =>
    intro n ds h c hc
    have hds : ∀ c ∈ Nat.digitChar (n % 10) :: ds, isParen c = false := by
      intro c1 hc1
      rcases List.mem_cons.mp hc1 with e | e
      · rw [e]; exact digitChar_noParen _
      · exact h c1 e
    simp only [Nat.toDigitsCore] at hc
    split at hc
    · exact hds c hc
    · exact ih _ _ hds c hc

theorem label_noParen (k : Nat) :
    ∀ c ∈ ("C" ++ toString (k + 1)).data, isParen c = false := by
  intro c hc
  have e : ("C" ++ toString (k + 1)).data = 'C' :: Nat.toDigits 10 (k + 1) := rfl
  rw [e] at hc
  rcases List.mem_cons.mp hc with h | h
  · rw [h]; decide
  · exact toDigitsCore_noParen _ _ [] (fun _ h => absurd h (List.not_mem_nil _)) c h

theorem noParen_facts : ∀ cs : List Char, (∀ c ∈ cs, isParen c = false) →
    cs.filter (fun c => !isParen c) = cs ∧ cs.count '(' = 0 ∧ cs.count ')' = 0 ∧
      ∀ dep, depthAfter cs dep = some dep := by
  intro cs
  induction cs with
  | nil => intro _; exact ⟨rfl, rfl, rfl, fun _ => rfl⟩
  | cons c cs ih =>
    intro h
    have hc := h c (List.mem_cons_self c cs)
    obtain ⟨a1, a2, a3, a4⟩ := ih (fun c1 h1 => h c1 (List.mem_cons_of_mem c h1))
    have n1 : c ≠ '(' := by
      intro e; rw [e] at hc; exact absurd hc (by decide)
    have n2 : c ≠ ')' := by
      intro e; rw [e] at hc; exact absurd hc (by decide)
    refine ⟨?_, ?_, ?_, ?_⟩
    · rw [List.filter_cons_of_pos (by simp [hc]), a1]
    · rw [List.count_cons_of_ne (fun e => n1 e.symm), a2]
    · rw [List.count_cons_of_ne (fun e => n2 e.symm), a3]
    · intro dep
      simp only [depthAfter, if_neg n1, if_neg n2]
      exact a4 dep

theorem depthAfter_append : ∀ (xs ys : List Char) (dep : Nat),
    depthAfter (xs ++ ys) dep = (depthAfter xs dep).bind (depthAfter ys) := by
  intro xs
  induction xs with
  | nil => intro ys dep; rfl
  | cons c xs ih =>
    intro ys dep
    simp only [List.cons_append, depthAfter]
    split_ifs
    · exact ih ys (dep + 1)
    · rfl
    · exact ih ys (dep - 1)
    · exact ih ys dep

theorem labelsText_append : ∀ c1 c2 k,
    labelsText (c1 + c2) k = labelsText c1 k ++ labelsText c2 (k + c1) := by
  intro c1
  induction c1 with
  | zero => intro c2 k; simp [labelsText]
  | succ c1 ih =>
    intro c2 k
    have e : c1 + 1 + c2 = (c1 + c2) + 1 := by omega
    rw [e]
    simp only [labelsText, ih c2 (k + 1), List.append_assoc]
    have e2 : k + 1 + c1 = k + (c1 + 1) := by omega
    rw [e2]

theorem render_node_data (l r : PTree) :
    (PTree.node l r).render.data = '(' :: (l.render.data ++ (r.render.data ++ [')'])) := by
  simp only [PTree.render, String.data_append, List.append_assoc]
  rfl

/-- The text of a parenthesization of `a..b`: without its parentheses it is the
labels of `a..b` in order; it has `b - a` opening and `b - a` closing
parentheses, and reading it leaves the nesting depth as it was. -/
theorem render_facts : ∀ (t : PTree) (a b : Nat), t.spans a b = true →
    t.render.data.filter (fun c => !isParen c) = labelsText (b + 1 - a) a ∧
    t.render.data.count '(' = b - a ∧ t.render.data.count ')' = b - a ∧
    ∀ dep, depthAfter t.render.data dep = some dep := by
  intro t
  induction t with
  | leaf m =>
    intro a b h
    simp only [PTree.spans, Bool.and_eq_true, beq_iff_eq] at h
    obtain ⟨h1, h2⟩ := h
    subst h1; subst h2
    obtain ⟨a1, a2, a3, a4⟩ := noParen_facts _ (label_noParen m)
    have e : m + 1 - m = 1 := by omega
    refine ⟨?_, ?_, ?_, a4⟩
    · rw [e]
      simp only [labelsText, List.append_nil]
      exact a1
    · rw [Nat.sub_self]; exact a2
    · rw [Nat.sub_self]; exact a3
  | node l r ihl ihr =>
    intro a b h
    have hs := h
    simp only [PTree.spans, Bool.and_eq_true] at hs
    have e1 := spans_ends l a l.last hs.1
    have e2 := spans_ends r (l.last + 1) b hs.2
    obtain ⟨l1, l2, l3, l4⟩ := ihl a l.last hs.1
    obtain ⟨r1, r2, r3, r4⟩ := ihr (l.last + 1) b hs.2
    rw [render_node_data]
    refine ⟨?_, ?_, ?_, ?_⟩
    · rw [List.filter_cons_of_neg (by decide), List.filter_append, List.filter_append, l1, r1]
      have hz : List.filter (fun c => !isParen c) [')'] = [] := by decide
      rw [hz, List.append_nil]
      have e3 : b + 1 - a = (l.last + 1 - a) + (b + 1 - (l.last + 1)) := by omega
      have e4 : a + (l.last + 1 - a) = l.last + 1 := by omega
      rw [e3, labelsText_append, e4]
    · rw [List.count_cons_self, List.count_append, List.count_append, l2, r2]
      have hz : List.count '(' [')'] = 0 := by decide
      rw [hz]
      omega
    · rw [List.count_cons_of_ne (by decide), List.count_append, List.count_append, l3, r3]
      have hz : List.count ')' [')'] = 1 := by decide
      rw [hz]
      omega
    · intro dep
      have n1 : ¬ (')' = '(') := by decide
      simp only [depthAfter, if_true, depthAfter_append, l4, r4, Option.bind_some, if_neg n1,
        Nat.add_sub_cancel]
      simp

/-! ## The claims -/

/-- C1: on every valid chain both objects can be constructed, `findOptimalCost`
and the oracle `MatrixChainBruteForce::bruteForceMinCost` both return, and they
return the same `int` (whether or not the 32 bit arithmetic wraps). -/
theorem findOptimalCost_eq_oracle (d : List (Int × Int)) (hv : ValidChain d) :
    ∃ s b v s1, MatrixChain.new d = .ok s ∧ MatrixChainBruteForce.new d = .ok b ∧
      s.findOptimalCost = some (v, s1) ∧ b.bruteForceMinCost = some v := by
  obtain ⟨s, s1, h1, h2, _⟩ := findOptimalCost_fresh d hv.1
  obtain ⟨b, h3, h4⟩ := bruteForceMinCost_fresh d hv.1
  exact ⟨s, b, _, s1, h1, h3, h2, h4⟩

theorem findOptimalCost_eq_oracle_witness :
    ValidChain [(6, 8), (8, 5), (5, 4), (4, 6)] ∧
    ∃ s b v s1, MatrixChain.new [(6, 8), (8, 5), (5, 4), (4, 6)] = .ok s ∧
      MatrixChainBruteForce.new [(6, 8), (8, 5), (5, 4), (4, 6)] = .ok b ∧
      s.findOptimalCost = some (v, s1) ∧ b.bruteForceMinCost = some v :=
  ⟨by decide, findOptimalCost_eq_oracle _ (by decide)⟩

/-- C2: on a valid chain whose candidate costs all stay below `INT_MAX`, the
oracle returns the cost of some full binary parenthesization of matrices
`0..n-1`, and no such parenthesization is cheaper; on `[(6,7),(7,5),(5,4)]` it
returns `308`. -/
theorem oracle_is_true_minimum :
    (∀ d : List (Int × Int), ValidChain d → CostsBelowIntMax d →
      ∃ b v, MatrixChainBruteForce.new d = .ok b ∧ b.bruteForceMinCost = some v ∧
        (∃ t : PTree, t.spans 0 (d.length - 1) = true ∧ t.cost d = v) ∧
        (∀ t : PTree, t.spans 0 (d.length - 1) = true → v ≤ t.cost d)) ∧
    (∃ b, MatrixChainBruteForce.new [(6, 7), (7, 5), (5, 4)] = .ok b ∧
      b.bruteForceMinCost = some 308) := by
  refine ⟨?_, ⟨_, rfl, by decide⟩⟩
  intro d hv hc
  have hlen : 0 < d.length := List.length_pos.mpr hv.1
  obtain ⟨b, h1, h2⟩ := bruteForceMinCost_fresh d hv.1
  rw [oracleCost_eq_optCost d hv hc 0 (d.length - 1) (Nat.zero_le _) (by omega)] at h2
  refine ⟨b, _, h1, h2, ?_, ?_⟩
  · exact optCost_tree d (d.length - 1) 0 (d.length - 1) rfl (Nat.zero_le _)
  · exact fun t ht => optCost_le_tree d t 0 (d.length - 1) ht

theorem oracle_is_true_minimum_witness :
    ValidChain [(6, 8), (8, 5), (5, 4), (4, 6)] ∧
    CostsBelowIntMax [(6, 8), (8, 5), (5, 4), (4, 6)] ∧
    ∃ b v, MatrixChainBruteForce.new [(6, 8), (8, 5), (5, 4), (4, 6)] = .ok b ∧
      b.bruteForceMinCost = some v ∧
      (∃ t : PTree, t.spans 0 3 = true ∧ t.cost [(6, 8), (8, 5), (5, 4), (4, 6)] = v) ∧
      (∀ t : PTree, t.spans 0 3 = true → v ≤ t.cost [(6, 8), (8, 5), (5, 4), (4, 6)]) :=
  ⟨by decide, by decide, oracle_is_true_minimum.1 _ (by decide) (by decide)⟩

/-- C3 (as stated, refuted): on the valid chain `[(2,1),(1,1),(1,2)]` the optimal
cost is `6` and the pairwise estimator returns `4`. -/
theorem optimal_exceeds_pairwise :
    ValidChain [(2, 1), (1, 1), (1, 2)] ∧
    ∃ s s1, MatrixChain.new [(2, 1), (1, 1), (1, 2)] = .ok s ∧
      s.findOptimalCost = some (6, s1) ∧ s.bruteForceMinCost = some 4 ∧ ¬ ((6 : Int) ≤ 4) :=
  ⟨by decide, _, _, rfl, rfl, rfl, by decide⟩

/-- C3 (amended): on a valid chain whose candidate costs stay below `INT_MAX`,
whose pairwise sum fits in an `int`, and in which none of the matrices
`0..n-2` has fewer rows than the first one, `findOptimalCost` returns at most
what the pairwise estimator `MatrixChain::bruteForceMinCost` returns. -/
theorem optimal_le_pairwise (d : List (Int × Int)) (hv : ValidChain d)
    (hc : CostsBelowIntMax d) (hs : pairwiseSum d ≤ INT_MAX)
    (hr : ∀ i, i < d.length - 1 → rows d 0 ≤ rows d i) :
    ∃ s v s1 w, MatrixChain.new d = .ok s ∧ s.findOptimalCost = some (v, s1) ∧
      s.bruteForceMinCost = some w ∧ v ≤ w := by
  have hlen : 0 < d.length := List.length_pos.mpr hv.1
  obtain ⟨s, s1, h1, h2, _, _, _, wf, _⟩ := findOptimalCost_fresh d hv.1
  rw [oracleCost_eq_optCost d hv hc 0 (d.length - 1) (Nat.zero_le _) (by omega)] at h2
  exact ⟨s, _, s1, _, h1, h2, naive_fresh d hv hs s wf.1,
    optCost_le_pairwiseSumUpTo d hv hr (d.length - 1) (le_refl _)⟩

theorem optimal_le_pairwise_witness :
    ValidChain [(6, 7), (7, 5), (5, 4)] ∧ CostsBelowIntMax [(6, 7), (7, 5), (5, 4)] ∧
    pairwiseSum [(6, 7), (7, 5), (5, 4)] ≤ INT_MAX ∧
    (∀ i, i < [(6, 7), (7, 5), ((5 : Int), (4 : Int))].length - 1 →
      rows [(6, 7), (7, 5), (5, 4)] 0 ≤ rows [(6, 7), (7, 5), (5, 4)] i) ∧
    ∃ s v s1 w, MatrixChain.new [(6, 7), (7, 5), (5, 4)] = .ok s ∧
      s.findOptimalCost = some (v, s1) ∧ s.bruteForceMinCost = some w ∧ v ≤ w :=
  ⟨by decide, by decide, by decide, by decide,
    optimal_le_pairwise _ (by decide) (by decide) (by decide) (by decide)⟩

/-- C4: on a valid chain with costs below `INT_MAX`, after `findOptimalCost` has
run, splitting the range `(0, n-1)` recursively at `sequence_[i][j]` yields a
parenthesization of matrices `0..n-1` whose cost is exactly the returned value,
and no parenthesization of `0..n-1` is cheaper. -/
theorem recorded_splits_realize_cost (d : List (Int × Int)) (hv : ValidChain d)
    (hc : CostsBelowIntMax d) :
    ∃ s v s1 t, MatrixChain.new d = .ok s ∧ s.findOptimalCost = some (v, s1) ∧
      splitTree s1.sequence_ d.length 0 ((d.length - 1 : Nat) : Int) = some t ∧
      t.spans 0 (d.length - 1) = true ∧ t.cost d = v ∧
      ∀ t1 : PTree, t1.spans 0 (d.length - 1) = true → v ≤ t1.cost d := by
  have hlen : 0 < d.length := List.length_pos.mpr hv.1
  obtain ⟨s, s1, h1, h2, _, hfill, _⟩ := findOptimalCost_fresh d hv.1
  rw [oracleCost_eq_optCost d hv hc 0 (d.length - 1) (Nat.zero_le _) (by omega)] at h2
  obtain ⟨t, t1, t2, t3⟩ := splitTree_spec d hv hc s1 hfill (d.length - 1) 0 (d.length - 1)
    rfl (Nat.zero_le _) (by omega) d.length (by omega)
  exact ⟨s, _, s1, t, h1, h2, t1, t2, t3,
    fun t1 ht => optCost_le_tree d t1 0 (d.length - 1) ht⟩

theorem recorded_splits_realize_cost_witness :
    ValidChain [(6, 7), (7, 5), (5, 4)] ∧ CostsBelowIntMax [(6, 7), (7, 5), (5, 4)] ∧
    ∃ s v s1 t, MatrixChain.new [(6, 7), (7, 5), (5, 4)] = .ok s ∧
      s.findOptimalCost = some (v, s1) ∧
      splitTree s1.sequence_ [(6, 7), (7, 5), ((5 : Int), (4 : Int))].length 0
        (([(6, 7), (7, 5), ((5 : Int), (4 : Int))].length - 1 : Nat) : Int) = some t ∧
      t.spans 0 ([(6, 7), (7, 5), ((5 : Int), (4 : Int))].length - 1) = true ∧
      t.cost [(6, 7), (7, 5), (5, 4)] = v ∧
      ∀ t1 : PTree, t1.spans 0 ([(6, 7), (7, 5), ((5 : Int), (4 : Int))].length - 1) = true →
        v ≤ t1.cost [(6, 7), (7, 5), (5, 4)] :=
  ⟨by decide, by decide, recorded_splits_realize_cost _ (by decide) (by decide)⟩

/-- C6: on a valid chain with costs below `INT_MAX`, after `findOptimalCost` has
run, for every `0 ≤ i < j ≤ n-1` the entry `sequence_[i][j]` is a split `k` in
`[i, j-1]` whose candidate cost `cost(i,k) + cost(k+1,j) + rows[i]*cols[k]*cols[j]`
is least, and every earlier split has a strictly larger candidate cost. -/
theorem sequence_is_first_minimiser (d : List (Int × Int)) (hv : ValidChain d)
    (hc : CostsBelowIntMax d) :
    ∃ s v s1, MatrixChain.new d = .ok s ∧ s.findOptimalCost = some (v, s1) ∧
      ∀ i j, i < j → j < d.length →
        ∃ k : Nat, s1.sequence_.get2 i j = some (k : Int) ∧ i ≤ k ∧ k < j ∧
          (∀ k2, i ≤ k2 → k2 < j → candCost d i j k ≤ candCost d i j k2) ∧
          (∀ k2, i ≤ k2 → k2 < k → candCost d i j k < candCost d i j k2) := by
  obtain ⟨s, s1, h1, h2, _, hfill, _⟩ := findOptimalCost_fresh d hv.1
  refine ⟨s, _, s1, h1, h2, ?_⟩
  intro i j hij hj
  obtain ⟨_, k, a1, a2, a3, a4, a5⟩ := entryDone_opt d hv hc s1 i j hij hj
    (hfill i j (Nat.zero_le _) hij (by omega))
  refine ⟨k, a1, a2, a3, ?_, ?_⟩
  · intro k2 b1 b2; rw [a4]; exact optCost_le_cand d i j k2 b1 b2
  · intro k2 b1 b2; rw [a4]; exact a5 k2 b1 b2

theorem sequence_is_first_minimiser_witness :
    ValidChain [(4, 4), (4, 4), (4, 4)] ∧ CostsBelowIntMax [(4, 4), (4, 4), (4, 4)] ∧
    ∃ s v s1, MatrixChain.new [(4, 4), (4, 4), (4, 4)] = .ok s ∧
      s.findOptimalCost = some (v, s1) ∧
      ∀ i j, i < j → j < [(4, 4), (4, 4), ((4 : Int), (4 : Int))].length →
        ∃ k : Nat, s1.sequence_.get2 i j = some (k : Int) ∧ i ≤ k ∧ k < j ∧
          (∀ k2, i ≤ k2 → k2 < j →
            candCost [(4, 4), (4, 4), (4, 4)] i j k ≤ candCost [(4, 4), (4, 4), (4, 4)] i j k2) ∧
          (∀ k2, i ≤ k2 → k2 < k →
            candCost [(4, 4), (4, 4), (4, 4)] i j k < candCost [(4, 4), (4, 4), (4, 4)] i j k2) :=
  ⟨by decide, by decide, sequence_is_first_minimiser _ (by decide) (by decide)⟩

/-- C5 (the code at the failing input): after `findOptimalCost` on
`[(6,7),(7,5),(5,4)]`, `printOptimalSequence(0, n_ - 1)` writes `(C1(C2C3))`,
without the ` x ` marker that `printMatrixSequence` writes between the two
halves. -/
theorem printOptimalSequence_omits_marker :
    ∃ s v s1, MatrixChain.new [(6, 7), (7, 5), (5, 4)] = .ok s ∧
      s.findOptimalCost = some (v, s1) ∧
      s1.printOptimalSequence s1.n_ 0 ((s1.n_ - 1 : Nat) : Int) = some "(C1(C2C3))" ∧
      "(C1(C2C3))" ≠ "(C1 x (C2 x C3))" :=
  ⟨_, _, _, rfl, rfl, rfl, by decide⟩

/-- C7: on a non-empty chain, if `i` is the least index in `0..n-2` at which the
loop body fails, construction followed by `validateDimensions` throws
`NonConformableDimensions` when `cols[i] != rows[i+1]` and `ZeroDimension`
otherwise; `[(6,7),(5,4)]` yields `NonConformableDimensions` and
`[(6,7),(7,0),(0,4)]` yields `ZeroDimension`. -/
theorem validate_reports_first_offence :
    (∀ (d : List (Int × Int)) (i : Nat), d ≠ [] → i < d.length - 1 → Offending d i →
      (∀ i1, i1 < i → ¬ Offending d i1) →
      validate d = some (.error
        (if cols d i ≠ rows d (i + 1) then Failure.NonConformableDimensions
         else Failure.ZeroDimension))) ∧
    validate [(6, 7), (5, 4)] = some (.error .NonConformableDimensions) ∧
    validate [(6, 7), (7, 0), (0, 4)] = some (.error .ZeroDimension) := by
  refine ⟨?_, rfl, rfl⟩
  intro d i hd hi hoff hgood
  rw [validate_nonempty d hd]
  exact validateLoop_first d i hi hoff (d.length - 1) 0 (Nat.zero_le _) (by omega)
    (fun i1 _ b => hgood i1 b)

theorem validate_reports_first_offence_witness :
    [(0, 7), ((5 : Int), (4 : Int))] ≠ [] ∧
    0 < [(0, 7), ((5 : Int), (4 : Int))].length - 1 ∧
    Offending [(0, 7), (5, 4)] 0 ∧ (∀ i1, i1 < 0 → ¬ Offending [(0, 7), (5, 4)] i1) ∧
    validate [(0, 7), (5, 4)] = some (.error .NonConformableDimensions) :=
  ⟨by decide, by decide, by decide, by decide,
    validate_reports_first_offence.1 [(0, 7), (5, 4)] 0 (by decide) (by decide) (by decide)
      (by decide)⟩

/-- C8 (the code at the failing input): construction followed by
`validateDimensions` accepts `[(6,7),(7,0)]`, although the column count of its
last matrix is zero. -/
theorem validate_accepts_zero_last_column :
    validate [(6, 7), (7, 0)] = some (.ok ()) ∧ ¬ DataModelValid [(6, 7), (7, 0)] :=
  ⟨rfl, by decide⟩

/-- C9: constructing either solver from the empty chain throws the `EmptyChain`
failure, whose message is "No matrices available."; nothing else is evaluated,
so construction followed by validation ends with that failure; construction
from a non-empty chain succeeds. -/
theorem empty_chain_fails_at_construction :
    MatrixChain.new [] = .error .EmptyChain ∧
    MatrixChainBruteForce.new [] = .error .EmptyChain ∧
    Failure.what .EmptyChain = "No matrices available." ∧
    validate [] = some (.error .EmptyChain) ∧
    ∀ d : List (Int × Int), d ≠ [] →
      (∃ s, MatrixChain.new d = .ok s) ∧ ∃ b, MatrixChainBruteForce.new d = .ok b :=
  ⟨rfl, rfl, rfl, rfl, fun _ h =>
    ⟨⟨_, MatrixChain.new_solver_ok h⟩, ⟨_, MatrixChainBruteForce.new_oracle_ok h⟩⟩⟩

theorem empty_chain_fails_at_construction_witness :
    [((6 : Int), (7 : Int))] ≠ [] ∧
    (∃ s, MatrixChain.new [(6, 7)] = .ok s) ∧ ∃ b, MatrixChainBruteForce.new [(6, 7)] = .ok b :=
  ⟨by decide, empty_chain_fails_at_construction.2.2.2.2 [(6, 7)] (by decide)⟩

/-- C10 (as stated, refuted): on the valid chain `[(65536,65536),(65536,1)]` the
sum is `2^32`, which no `int` holds; the estimator returns `0`. -/
theorem pairwise_estimator_overflows :
    ValidChain [(65536, 65536), (65536, 1)] ∧
    pairwiseSum [(65536, 65536), (65536, 1)] = 4294967296 ∧
    ∃ s, MatrixChain.new [(65536, 65536), (65536, 1)] = .ok s ∧
      s.bruteForceMinCost = some 0 :=
  ⟨by decide, by decide, _, rfl, rfl⟩

/-- C10 (amended): on a valid chain whose sum over `i = 0..n-2` of
`rows[i]*cols[i]*cols[i+1]` does not exceed `INT_MAX`, the pairwise estimator
`MatrixChain::bruteForceMinCost` returns that sum; on `[(6,7),(7,5),(5,4)]` it
returns `210 + 140 = 350`. -/
theorem pairwise_estimator_returns_sum :
    (∀ d : List (Int × Int), ValidChain d → pairwiseSum d ≤ INT_MAX →
      ∃ s, MatrixChain.new d = .ok s ∧ s.bruteForceMinCost = some (pairwiseSum d)) ∧
    (∃ s, MatrixChain.new [(6, 7), (7, 5), (5, 4)] = .ok s ∧
      s.bruteForceMinCost = some (210 + 140) ∧ s.bruteForceMinCost = some 350) := by
  refine ⟨?_, ⟨_, rfl, rfl, rfl⟩⟩
  intro d hv hs
  exact ⟨_, MatrixChain.new_solver_ok hv.1, naive_fresh d hv hs _ rfl⟩

theorem pairwise_estimator_returns_sum_witness :
    ValidChain [(6, 8), (8, 5), (5, 4), (4, 6)] ∧
    pairwiseSum [(6, 8), (8, 5), (5, 4), (4, 6)] ≤ INT_MAX ∧
    ∃ s, MatrixChain.new [(6, 8), (8, 5), (5, 4), (4, 6)] = .ok s ∧
      s.bruteForceMinCost = some (pairwiseSum [(6, 8), (8, 5), (5, 4), (4, 6)]) :=
  ⟨by decide, by decide, pairwise_estimator_returns_sum.1 _ (by decide) (by decide)⟩

/-- C11: on a chain of exactly one matrix, whatever its dimensions,
`findOptimalCost`, the oracle `MatrixChainBruteForce::bruteForceMinCost` and the
pairwise estimator `MatrixChain::bruteForceMinCost` all return `0`, and
`findOptimalCost` leaves the solver as constructed: the only entry of
`sequence_` (and of `memo_`) keeps its initial value `-1`. -/
theorem single_matrix_costs_zero (p : Int × Int) :
    ∃ s b, MatrixChain.new [p] = .ok s ∧ MatrixChainBruteForce.new [p] = .ok b ∧
      s.findOptimalCost = some (0, s) ∧ b.bruteForceMinCost = some 0 ∧
      s.bruteForceMinCost = some 0 ∧ s.sequence_ = [[-1]] ∧ s.memo_ = [[-1]] :=
  ⟨_, _, rfl, rfl, rfl, rfl, rfl, rfl, rfl⟩

/-- C14: on a valid chain with costs below `INT_MAX`, after `findOptimalCost` has
run, every entry `sequence_[i][j]` with `0 ≤ i < j ≤ n-1` holds a split `k` with
`i ≤ k < j`; in particular none is left at `-1`. -/
theorem recorded_splits_in_range (d : List (Int × Int)) (hv : ValidChain d)
    (hc : CostsBelowIntMax d) :
    ∃ s v s1, MatrixChain.new d = .ok s ∧ s.findOptimalCost = some (v, s1) ∧
      ∀ i j, i < j → j < d.length →
        ∃ k : Int, s1.sequence_.get2 i j = some k ∧ (i : Int) ≤ k ∧ k < (j : Int) ∧ k ≠ -1 := by
  obtain ⟨s, s1, h1, h2, _, hfill, _⟩ := findOptimalCost_fresh d hv.1
  refine ⟨s, _, s1, h1, h2, ?_⟩
  intro i j hij hj
  obtain ⟨_, k, a1, a2, a3, _⟩ := entryDone_opt d hv hc s1 i j hij hj
    (hfill i j (Nat.zero_le _) hij (by omega))
  exact ⟨(k : Int), a1, by omega, by omega, by omega⟩

theorem recorded_splits_in_range_witness :
    ValidChain [(6, 8), (8, 5), (5, 4), (4, 6)] ∧
    CostsBelowIntMax [(6, 8), (8, 5), (5, 4), (4, 6)] ∧
    ∃ s v s1, MatrixChain.new [(6, 8), (8, 5), (5, 4), (4, 6)] = .ok s ∧
      s.findOptimalCost = some (v, s1) ∧
      ∀ i j, i < j → j < [(6, 8), (8, 5), (5, 4), ((4 : Int), (6 : Int))].length →
        ∃ k : Int, s1.sequence_.get2 i j = some k ∧ (i : Int) ≤ k ∧ k < (j : Int) ∧ k ≠ -1 :=
  ⟨by decide, by decide, recorded_splits_in_range _ (by decide) (by decide)⟩

/-- C15: on a valid chain, after `findOptimalCost` has run, for every
`0 ≤ i < j ≤ n-1` the entry `memo_[i][j]` holds the value that the oracle
`bruteForceCost(i, j)` returns; when the candidate costs stay below `INT_MAX`
this is the minimum cost of the sub-chain `i..j` given by the recurrence over
unbounded integers. -/
theorem memo_holds_oracle_cost (d : List (Int × Int)) (hv : ValidChain d) :
    ∃ s b v s1, MatrixChain.new d = .ok s ∧ MatrixChainBruteForce.new d = .ok b ∧
      s.findOptimalCost = some (v, s1) ∧
      ∀ i j, i < j → j < d.length →
        ∃ w, s1.memo_.get2 i j = some w ∧ b.bruteForceCost b.n_ i j = some w ∧
          (CostsBelowIntMax d → w = optCost d i j) := by
  obtain ⟨s, s1, h1, h2, _, hfill, _⟩ := findOptimalCost_fresh d hv.1
  refine ⟨s, _, _, s1, h1, MatrixChainBruteForce.new_oracle_ok hv.1, h2, ?_⟩
  intro i j hij hj
  refine ⟨oracleCost d i j, (hfill i j (Nat.zero_le _) hij (by omega)).1, ?_, ?_⟩
  · exact bruteForceCost_eq d _ rfl d.length i j (by omega) hj (by omega)
  · intro hc; exact oracleCost_eq_optCost d hv hc i j (by omega) hj

theorem memo_holds_oracle_cost_witness :
    ValidChain [(6, 8), (8, 5), (5, 4), (4, 6)] ∧
    ∃ s b v s1, MatrixChain.new [(6, 8), (8, 5), (5, 4), (4, 6)] = .ok s ∧
      MatrixChainBruteForce.new [(6, 8), (8, 5), (5, 4), (4, 6)] = .ok b ∧
      s.findOptimalCost = some (v, s1) ∧
      ∀ i j, i < j → j < [(6, 8), (8, 5), (5, 4), ((4 : Int), (6 : Int))].length →
        ∃ w, s1.memo_.get2 i j = some w ∧ b.bruteForceCost b.n_ i j = some w ∧
          (CostsBelowIntMax [(6, 8), (8, 5), (5, 4), (4, 6)] →
            w = optCost [(6, 8), (8, 5), (5, 4), (4, 6)] i j) :=
  ⟨by decide, memo_holds_oracle_cost _ (by decide)⟩

/-- C16 (as stated, refuted): on `[(6,7),(7,5),(5,4)]` the diagonal entry
`memo_[0][0]` is `-1` after construction and still `-1` after `findOptimalCost`. -/
theorem diagonal_entry_is_minus_one :
    ∃ s v s1, MatrixChain.new [(6, 7), (7, 5), (5, 4)] = .ok s ∧
      s.memo_.get2 0 0 = some (-1) ∧ s.findOptimalCost = some (v, s1) ∧
      s1.memo_.get2 0 0 = some (-1) ∧ ((-1 : Int) ≠ 0) :=
  ⟨_, _, _, rfl, rfl, rfl, rfl, by decide⟩

/-- C16 (amended): on a valid chain, every diagonal entry `memo_[i][i]` holds its
initial value `-1` after construction and after `findOptimalCost` has run; the
cost `0` of a single matrix is returned by `calculateCost(i, i)` itself, which
leaves the solver untouched. -/
theorem diagonal_entries_stay_initial (d : List (Int × Int)) (hv : ValidChain d) :
    ∃ s v s1, MatrixChain.new d = .ok s ∧ s.findOptimalCost = some (v, s1) ∧
      ∀ i, i < d.length →
        s.memo_.get2 i i = some (-1) ∧ s1.memo_.get2 i i = some (-1) ∧
        MatrixChain.calculateCost s1.n_ i i s1 = some (0, s1) := by
  have hlen : 0 < d.length := List.length_pos.mpr hv.1
  obtain ⟨s, s1, h1, h2, wf1, _, hsame, _, hm, _⟩ := findOptimalCost_fresh d hv.1
  refine ⟨s, _, s1, h1, h2, ?_⟩
  intro i hi
  have h0 : s.memo_.get2 i i = some (-1) := by rw [hm]; exact replicate_get2 _ _ i i hi hi
  refine ⟨h0, by rw [(hsame i i (by omega)).1]; exact h0, ?_⟩
  rw [wf1.2.1]
  obtain ⟨m, hm1⟩ : ∃ m, d.length = m + 1 := ⟨d.length - 1, by omega⟩
  rw [hm1]
  simp [MatrixChain.calculateCost]

theorem diagonal_entries_stay_initial_witness :
    ValidChain [(6, 7), (7, 5), (5, 4)] ∧
    ∃ s v s1, MatrixChain.new [(6, 7), (7, 5), (5, 4)] = .ok s ∧
      s.findOptimalCost = some (v, s1) ∧
      ∀ i, i < [(6, 7), (7, 5), ((5 : Int), (4 : Int))].length →
        s.memo_.get2 i i = some (-1) ∧ s1.memo_.get2 i i = some (-1) ∧
        MatrixChain.calculateCost s1.n_ i i s1 = some (0, s1) :=
  ⟨by decide, diagonal_entries_stay_initial _ (by decide)⟩

/-- C19: on a non-empty chain, construction followed by `validateDimensions`
succeeds exactly when `cols[i] == rows[i+1]`, `rows[i] != 0` and `cols[i] != 0`
for every `i` in `0..n-2`; the outcome is the same for two chains that differ
only in the column count of the last matrix; every single-matrix chain is
accepted. -/
theorem validate_accepts_iff :
    (∀ d : List (Int × Int), d ≠ [] →
      (validate d = some (.ok ()) ↔
        ∀ i, i < d.length - 1 → cols d i = rows d (i + 1) ∧ rows d i ≠ 0 ∧ cols d i ≠ 0)) ∧
    (∀ d d1 : List (Int × Int), d ≠ [] → d.length = d1.length →
      (∀ i, i < d.length → rows d i = rows d1 i) →
      (∀ i, i < d.length - 1 → cols d i = cols d1 i) → validate d = validate d1) ∧
    (∀ p : Int × Int, validate [p] = some (.ok ())) := by
  refine ⟨?_, ?_, fun p => rfl⟩
  · intro d hd
    rw [validate_ok_iff d hd]
    constructor
    · intro h i hi
      have := h i hi
      unfold Offending at this
      by_cases a : cols d i = rows d (i + 1)
      · by_cases b : rows d i = 0
        · exact absurd (Or.inr (Or.inl b)) this
        · by_cases c : cols d i = 0
          · exact absurd (Or.inr (Or.inr c)) this
          · exact ⟨a, b, c⟩
      · exact absurd (Or.inl a) this
    · intro h i hi hoff
      obtain ⟨a, b, c⟩ := h i hi
      rcases hoff with e | e | e
      · exact e a
      · exact b e
      · exact c e
  · intro d d1 hd hlen hrows hcols
    have hd1 : d1 ≠ [] := by
      intro e; rw [e] at hlen; exact hd (List.length_eq_zero.mp hlen)
    rw [validate_nonempty d hd, validate_nonempty d1 hd1, ← hlen]
    exact validateLoop_congr d d1 hlen hrows hcols (d.length - 1) 0 (by omega)

theorem validate_accepts_iff_witness :
    [(6, 7), ((7 : Int), (0 : Int))] ≠ [] ∧
    (validate [(6, 7), (7, 0)] = some (.ok ()) ↔
      ∀ i, i < [(6, 7), ((7 : Int), (0 : Int))].length - 1 →
        cols [(6, 7), (7, 0)] i = rows [(6, 7), (7, 0)] (i + 1) ∧
        rows [(6, 7), (7, 0)] i ≠ 0 ∧ cols [(6, 7), (7, 0)] i ≠ 0) :=
  ⟨by decide, validate_accepts_iff.1 _ (by decide)⟩

/-- C12: a chain of `n ≥ 1` identical `d x d` matrices with `d ≥ 1` passes
validation; when `(n-1) * d^3` does not exceed `INT_MAX`, `findOptimalCost` and
the pairwise estimator both return `(n-1) * d^3`; on `[(4,4),(4,4),(4,4)]` both
return `128`. -/
theorem square_chain_costs :
    (∀ (n : Nat) (d : Int), 1 ≤ n → 1 ≤ d →
      validate (List.replicate n (d, d)) = some (.ok ()) ∧
      (((n - 1 : Nat) : Int) * d ^ 3 ≤ INT_MAX →
        ∃ s s1, MatrixChain.new (List.replicate n (d, d)) = .ok s ∧
          s.findOptimalCost = some (((n - 1 : Nat) : Int) * d ^ 3, s1) ∧
          s.bruteForceMinCost = some (((n - 1 : Nat) : Int) * d ^ 3))) ∧
    (validate [(4, 4), (4, 4), (4, 4)] = some (.ok ()) ∧
      ∃ s s1, MatrixChain.new [(4, 4), (4, 4), (4, 4)] = .ok s ∧
        s.findOptimalCost = some (128, s1) ∧ s.bruteForceMinCost = some 128) := by
  refine ⟨?_, rfl, _, _, rfl, rfl, rfl⟩
  intro n d hn hd
  have hv := validChain_square n d hn hd
  have hlen : (List.replicate n (d, d)).length = n := List.length_replicate _ _
  constructor
  · rw [validate_ok_iff _ hv.1]
    intro i hi hoff
    have h1 := hv.2.1 i (by omega)
    have h2 := hv.2.2 i hi
    rcases hoff with e | e | e
    · exact e h2
    · omega
    · omega
  · intro hfit
    have hpow : d ^ 3 = d * d * d := by ring
    rw [hpow] at hfit ⊢
    unfold INT_MAX at hfit
    obtain ⟨s, s1, h1, h2, _, _, _, wf, _⟩ := findOptimalCost_fresh _ hv.1
    rw [hlen, oracleCost_square n d hd hfit (n - 1) 0 (n - 1) rfl (Nat.zero_le _) (by omega)]
      at h2
    have hsum : pairwiseSum (List.replicate n (d, d)) = ((n - 1 : Nat) : Int) * (d * d * d) := by
      unfold pairwiseSum
      rw [hlen]
      exact pairwiseSumUpTo_square n d (n - 1) (le_refl _)
    have h3 := naive_fresh _ hv (by rw [hsum]; exact hfit) s wf.1
    rw [hsum] at h3
    exact ⟨s, s1, h1, h2, h3⟩

theorem square_chain_costs_witness :
    (1 : Nat) ≤ 5 ∧ (1 : Int) ≤ 3 ∧
    validate (List.replicate 5 ((3 : Int), (3 : Int))) = some (.ok ()) ∧
    (((5 - 1 : Nat) : Int) * (3 : Int) ^ 3 ≤ INT_MAX →
      ∃ s s1, MatrixChain.new (List.replicate 5 ((3 : Int), (3 : Int))) = .ok s ∧
        s.findOptimalCost = some (((5 - 1 : Nat) : Int) * (3 : Int) ^ 3, s1) ∧
        s.bruteForceMinCost = some (((5 - 1 : Nat) : Int) * (3 : Int) ^ 3)) :=
  ⟨by decide, by decide, square_chain_costs.1 5 3 (by decide) (by decide)⟩

/-- C13: on a valid chain, a second `findOptimalCost` on the solver left by the
first one returns the same cost and leaves the solver, hence `memo_` and
`sequence_`, exactly as the first call left it; and two solvers freshly built
from equal chains return equal costs and end with equal `sequence_` tables. -/
theorem findOptimalCost_idempotent :
    (∀ d : List (Int × Int), ValidChain d →
      ∃ s v s1, MatrixChain.new d = .ok s ∧ s.findOptimalCost = some (v, s1) ∧
        s1.findOptimalCost = some (v, s1)) ∧
    (∀ (d d1 : List (Int × Int)) (sa sb : MatrixChain) (ra rb : Int × MatrixChain),
      d = d1 → MatrixChain.new d = .ok sa → MatrixChain.new d1 = .ok sb →
      sa.findOptimalCost = some ra → sb.findOptimalCost = some rb →
      ra.1 = rb.1 ∧ ra.2.sequence_ = rb.2.sequence_ ∧ ra.2.memo_ = rb.2.memo_) := by
  constructor
  · intro d hv
    have hlen : 0 < d.length := List.length_pos.mpr hv.1
    obtain ⟨s, s1, h1, h2, wf1, hfill, _⟩ := findOptimalCost_fresh d hv.1
    refine ⟨s, _, s1, h1, h2, ?_⟩
    unfold MatrixChain.findOptimalCost
    rw [wf1.2.1]
    exact calculateCost_fixed d d.length 0 (d.length - 1) (by omega) (Nat.zero_le _) (by omega)
      s1 wf1 hfill
  · intro d d1 sa sb ra rb hd ha hb hra hrb
    subst hd
    rw [ha] at hb
    injection hb with hb
    subst hb
    rw [hra] at hrb
    injection hrb with hrb
    subst hrb
    exact ⟨rfl, rfl, rfl⟩

theorem findOptimalCost_idempotent_witness :
    ValidChain [(6, 8), (8, 5), (5, 4), (4, 6)] ∧
    ∃ s v s1, MatrixChain.new [(6, 8), (8, 5), (5, 4), (4, 6)] = .ok s ∧
      s.findOptimalCost = some (v, s1) ∧ s1.findOptimalCost = some (v, s1) :=
  ⟨by decide, findOptimalCost_idempotent.1 _ (by decide)⟩

/-- C18: for `0 ≤ i ≤ j` (with `j + 1` an `int`), `printMatrixSequence(i, j)`
writes `out(i, j)`, where `out(i, i)` is `C` followed by the decimal `i+1` and,
for `i < j`, `out(i, j)` is `(`, then for `k = i, ..., j-1` in ascending order
`out(i, k)`, ` x ` and `out(k+1, j)`, then `)`; on a chain of length 3,
`printMatrixSequence(0, 2)` writes `(C1 x (C2 x C3)(C1 x C2) x C3)`. -/
theorem printMatrixSequence_text :
    (∀ (m : MatrixChainBase) (fuel i j : Nat), i ≤ j → j < 2147483647 → j - i < fuel →
      m.printMatrixSequence fuel i j = some (outText i j)) ∧
    (∀ i, outText i i = "C" ++ toString (i + 1)) ∧
    (∀ i j, i < j →
      outText i j = "(" ++ concatRange (fun k => outText i k ++ " x " ++ outText (k + 1) j)
        (j - i) i ++ ")") ∧
    (∀ m : MatrixChainBase, m.n_ = 3 →
      m.printMatrixSequence m.n_ 0 (m.n_ - 1) = some "(C1 x (C2 x C3)(C1 x C2) x C3)") := by
  refine ⟨?_, outText_self, outText_unfold, ?_⟩
  · intro m fuel i j hij hj hfuel
    exact printMatrixSequence_eq m (j - i) i j rfl hij hj fuel hfuel
  · intro m h
    rw [h]
    rfl

theorem printMatrixSequence_text_witness :
    (1 : Nat) ≤ 3 ∧ (3 : Nat) < 2147483647 ∧ 3 - 1 < 3 ∧
    (MatrixChainBase.mk [(6, 7), (7, 5), (5, 4), (4, 2)] 4).printMatrixSequence 3 1 3
      = some (outText 1 3) ∧ outText 1 3 = "(C2 x (C3 x C4)(C2 x C3) x C4)" :=
  ⟨by decide, by decide, by decide,
    printMatrixSequence_text.1 _ 3 1 3 (by decide) (by decide) (by decide), by decide⟩

/-- C17 (the code at the failing input): the chain `[(1,1),(1,2147483647)]` is
valid and passes validation, and no `int` operation overflows on it; its only
candidate cost equals `INT_MAX`, which the strict test `cost < minCost` never
takes for an improvement on the initial `INT_MAX`, so `findOptimalCost` returns
`2147483647` and leaves `sequence_[0][1]` at `-1`; `printOptimalSequence(0, 1)`
then reads `sequence_[0][-1]`, outside the table, and writes no parenthesization,
while `printMatrixSequence(0, 1)` writes `(C1 x C2)` on the same solver. -/
theorem printOptimalSequence_fails_at_sentinel :
    ValidChain [(1, 1), (1, 2147483647)] ∧
    validate [(1, 1), (1, 2147483647)] = some (.ok ()) ∧
    ∃ s s1, MatrixChain.new [(1, 1), (1, 2147483647)] = .ok s ∧
      s.findOptimalCost = some (2147483647, s1) ∧ s1.sequence_.get2 0 1 = some (-1) ∧
      s1.sequence_.getInt 0 (-1) = none ∧
      s1.printOptimalSequence s1.n_ 0 ((s1.n_ - 1 : Nat) : Int) = none ∧
      s1.toMatrixChainBase.printMatrixSequence s1.n_ 0 (s1.n_ - 1) = some "(C1 x C2)" :=
  ⟨by decide, rfl, _, _, rfl, rfl, rfl, rfl, rfl, rfl⟩

/-- The text of `printOptimalSequence` away from the failing case: on a valid
chain with costs below `INT_MAX`, after `findOptimalCost` has run,
`printOptimalSequence(0, n-1)` writes the text of one
binary parenthesization of matrices `0..n-1`: without its parentheses the text
is `C1C2...Cn` (each label once, in ascending order), it has exactly `n-1`
opening and `n-1` closing parentheses, and they are balanced. -/
theorem printOptimalSequence_well_formed (d : List (Int × Int)) (hv : ValidChain d)
    (hc : CostsBelowIntMax d) :
    ∃ s v s1 txt, ∃ t : PTree, MatrixChain.new d = .ok s ∧
      s.findOptimalCost = some (v, s1) ∧
      s1.printOptimalSequence s1.n_ 0 ((d.length - 1 : Nat) : Int) = some txt ∧
      t.spans 0 (d.length - 1) = true ∧ txt = t.render ∧
      txt.data.filter (fun c => !isParen c) = labelsText d.length 0 ∧
      txt.data.count '(' = d.length - 1 ∧ txt.data.count ')' = d.length - 1 ∧
      Balanced txt.data := by
  have hlen : 0 < d.length := List.length_pos.mpr hv.1
  obtain ⟨s, s1, h1, h2, wf1, hfill, _⟩ := findOptimalCost_fresh d hv.1
  have hcc := computed_of_valid d hv hc
  obtain ⟨t, t1, t2, _⟩ := printOptimalSequence_spec d s1 (length_fits_int d hv hc)
    (fun a b hab hb => entry_split d s1 a b hab hb (hfill a b (Nat.zero_le _) hab (by omega))
      (oracleCost_lt_of_computed d hcc a b hab hb))
    (d.length - 1) 0 (d.length - 1) rfl (Nat.zero_le _) (by omega) d.length (by omega)
  obtain ⟨f1, f2, f3, f4⟩ := render_facts t 0 (d.length - 1) t2
  have e : d.length - 1 + 1 - 0 = d.length := by omega
  rw [e] at f1
  refine ⟨s, _, s1, t.render, t, h1, h2, ?_, t2, rfl, f1, f2, f3, f4 0⟩
  rw [wf1.2.1]
  exact t1

theorem printOptimalSequence_well_formed_witness :
    ValidChain [(6, 7), (7, 5), (5, 4)] ∧ CostsBelowIntMax [(6, 7), (7, 5), (5, 4)] ∧
    ∃ s v s1 txt, ∃ t : PTree, MatrixChain.new [(6, 7), (7, 5), (5, 4)] = .ok s ∧
      s.findOptimalCost = some (v, s1) ∧
      s1.printOptimalSequence s1.n_ 0
        (([(6, 7), (7, 5), ((5 : Int), (4 : Int))].length - 1 : Nat) : Int) = some txt ∧
      t.spans 0 ([(6, 7), (7, 5), ((5 : Int), (4 : Int))].length - 1) = true ∧
      txt = t.render ∧
      txt.data.filter (fun c => !isParen c)
        = labelsText [(6, 7), (7, 5), ((5 : Int), (4 : Int))].length 0 ∧
      txt.data.count '(' = [(6, 7), (7, 5), ((5 : Int), (4 : Int))].length - 1 ∧
      txt.data.count ')' = [(6, 7), (7, 5), ((5 : Int), (4 : Int))].length - 1 ∧
      Balanced txt.data :=
  ⟨by decide, by decide, printOptimalSequence_well_formed _ (by decide) (by decide)⟩

/-- C20: on a non-empty chain whose length fits an `int` and whose computed
costs are all below `INT_MAX`, `calculateCost(0, n-1)` followed by
`printOptimalSequence(0, n-1)` runs to completion without reading or writing
outside `dimensions_`, `memo_` or `sequence_`; every split that
`printOptimalSequence` follows lies in `[i, j-1]`, so that both functions only
recurse on ranges inside `0..n-1` that are strictly shorter than the caller's:
on every range `i ≤ j ≤ n-1` a nesting depth of `j - i + 1` is enough. -/
theorem run_stays_in_bounds (d : List (Int × Int)) (hd : d ≠ [])
    (hn : d.length ≤ 2147483647) (hc : ComputedCostsBelowIntMax d) :
    ∃ s v s1 txt, MatrixChain.new d = .ok s ∧ s.findOptimalCost = some (v, s1) ∧
      s1.printOptimalSequence s1.n_ 0 ((d.length - 1 : Nat) : Int) = some txt ∧
      (∀ i j, i < j → j < d.length →
        ∃ k : Nat, s1.sequence_.get2 i j = some (k : Int) ∧ i ≤ k ∧ k < j) ∧
      (∀ i j, i ≤ j → j < d.length →
        (∃ r, MatrixChain.calculateCost (j - i + 1) i j s = some r) ∧
        ∃ t, s1.printOptimalSequence (j - i + 1) (i : Int) (j : Int) = some t) := by
  have hlen : 0 < d.length := List.length_pos.mpr hd
  obtain ⟨s, s1, h1, h2, wf1, hfill, _, wf, hm, _⟩ := findOptimalCost_fresh d hd
  have hs : ∀ a b, a < b → b < d.length →
      ∃ k : Nat, s1.sequence_.get2 a b = some (k : Int) ∧ a ≤ k ∧ k < b :=
    fun a b hab hb => entry_split d s1 a b hab hb (hfill a b (Nat.zero_le _) hab (by omega))
      (oracleCost_lt_of_computed d hc a b hab hb)
  obtain ⟨t, t1, _, _⟩ := printOptimalSequence_spec d s1 hn hs (d.length - 1) 0 (d.length - 1)
    rfl (Nat.zero_le _) (by omega) d.length (by omega)
  refine ⟨s, _, s1, t.render, h1, h2, by rw [wf1.2.1]; exact t1, hs, ?_⟩
  intro i j hij hj
  constructor
  · obtain ⟨s2, r1, _⟩ := calculateCost_spec d (j - i + 1) i j (by omega) hij hj s wf
      (fun a b _ _ _ => Or.inl (by rw [hm]; exact replicate_get2 _ _ a b (by omega) (by omega)))
    exact ⟨_, r1⟩
  · obtain ⟨t2, r1, _, _⟩ := printOptimalSequence_spec d s1 hn hs (j - i) i j rfl hij hj
      (j - i + 1) (by omega)
    exact ⟨_, r1⟩

theorem run_stays_in_bounds_witness :
    [(-3, 2), (2, 5), ((5 : Int), (4 : Int))] ≠ [] ∧
    [(-3, 2), (2, 5), ((5 : Int), (4 : Int))].length ≤ 2147483647 ∧
    ComputedCostsBelowIntMax [(-3, 2), (2, 5), (5, 4)] ∧
    ∃ s v s1 txt, MatrixChain.new [(-3, 2), (2, 5), (5, 4)] = .ok s ∧
      s.findOptimalCost = some (v, s1) ∧
      s1.printOptimalSequence s1.n_ 0
        (([(-3, 2), (2, 5), ((5 : Int), (4 : Int))].length - 1 : Nat) : Int) = some txt ∧
      (∀ i j, i < j → j < [(-3, 2), (2, 5), ((5 : Int), (4 : Int))].length →
        ∃ k : Nat, s1.sequence_.get2 i j = some (k : Int) ∧ i ≤ k ∧ k < j) ∧
      (∀ i j, i ≤ j → j < [(-3, 2), (2, 5), ((5 : Int), (4 : Int))].length →
        (∃ r, MatrixChain.calculateCost (j - i + 1) i j s = some r) ∧
        ∃ t, s1.printOptimalSequence (j - i + 1) (i : Int) (j : Int) = some t) :=
  ⟨by decide, by decide, by decide,
    run_stays_in_bounds _ (by decide) (by decide) (by decide)⟩

end MatChain
